import Mathlib

/-!
# Verification of the Bayes-tree component (`gtsam/inference/BayesTree.h`)

This file gives a shallow embedding of the Bayes-tree data structure and its
operations, and proves or refutes the specified properties.

The repository ships only the header `BayesTree.h`; the bodies of the
out-of-line members (`removeTop`, `removePath`, the `insert` overloads,
`findParentClique`, `shortcut`, `permuteWithInverse`, `addClique`) live in an
implementation file that is not part of the sources.  Those operations are
therefore modelled from the specification, as documented on each definition
(`Modelled from the spec: ...`).  The members defined inline in the header
(`Clique::equals`, `cloneTo`/`cloneToBayesTree`, `operator[]`, `size`,
`treeSize`) are translated directly from the header's code.

Modelling conventions:
* a variable (`Index`) is a natural number;
* a conditional is its structural signature: an ordered list of frontal
  variables and a list of parent (separator) variables;
* a clique owns exactly one conditional plus a list of child subtrees
  (`BayesTree.h` line 61: "this Clique contains exactly 1 conditional");
  parent pointers are represented implicitly by the tree structure;
* a tree is `Option Clique`: the optional root clique (`root_`), owning all
  descendants; the nodes index is derived from frontal membership (invariant
  I5 of the spec), except for the claim about `operator[]`, where the
  `std::deque` index is modelled explicitly;
* C++ exceptions / null-pointer dereferences are modelled with
  `Except` / `Option`.
-/

/-- A variable identifier (`Index` in the source): an opaque natural. -/
abbrev Var := Nat

/-- Structural signature of a conditional `P(frontals | parents)`:
the ordered frontal variables and the separator (parent) variables. -/
structure Conditional where
  frontals : List Var
  parents  : List Var
deriving Repr, DecidableEq

/-- A clique of the Bayes tree: exactly one conditional plus the owned list
of child subtrees (`conditional_` and `children_` of `struct Clique`).
The non-owning parent pointer is implicit in the tree structure. -/
inductive Clique where
  | node : Conditional → List Clique → Clique
deriving Repr

mutual
/-- Boolean structural equality on cliques (used to derive decidable
equality, which the nested inductive cannot auto-derive). -/
def cliqueBEq : Clique → Clique → Bool
  | .node c ch, .node d dh => c == d && cliqueBEqL ch dh
def cliqueBEqL : List Clique → List Clique → Bool
  | [], [] => true
  | k :: ks, m :: ms => cliqueBEq k m && cliqueBEqL ks ms
  | _, _ => false
end

mutual
theorem cliqueBEq_refl : ∀ t : Clique, cliqueBEq t t = true
  | .node c ch => by simp [cliqueBEq, cliqueBEqL_refl ch]
theorem cliqueBEqL_refl : ∀ l : List Clique, cliqueBEqL l l = true
  | [] => by simp [cliqueBEqL]
  | k :: ks => by simp [cliqueBEqL, cliqueBEq_refl k, cliqueBEqL_refl ks]
end

mutual
theorem cliqueBEq_eq : ∀ a b : Clique, cliqueBEq a b = true → a = b
  | .node c ch, .node d dh => by
    simp only [cliqueBEq, Bool.and_eq_true, beq_iff_eq]
    rintro ⟨rfl, h2⟩
    rw [cliqueBEqL_eq ch dh h2]
theorem cliqueBEqL_eq : ∀ a b : List Clique, cliqueBEqL a b = true → a = b
  | [], [] => by intro; rfl
  | k :: ks, m :: ms => by
    simp only [cliqueBEqL, Bool.and_eq_true]
    rintro ⟨h1, h2⟩
    rw [cliqueBEq_eq k m h1, cliqueBEqL_eq ks ms h2]
  | [], _ :: _ => by simp [cliqueBEqL]
  | _ :: _, [] => by simp [cliqueBEqL]
end

instance : DecidableEq Clique := fun a b =>
  if h : cliqueBEq a b = true then .isTrue (cliqueBEq_eq a b h)
  else .isFalse (fun he => h (he ▸ cliqueBEq_refl a))

/-- Strong induction principle for the nested inductive `Clique`. -/
theorem Clique.myInduction (P : Clique → Prop)
    (h : ∀ c ch, (∀ k ∈ ch, P k) → P (.node c ch)) : ∀ x, P x := by
  intro x
  induction x using Clique.rec (motive_2 := fun l => ∀ k ∈ l, P k) with
  | node c ch ih => exact h c ch ih
  | nil => rename_i k hk; exact absurd hk (List.not_mem_nil k)
  | cons a as iha ihas =>
      rename_i k hk
      cases hk with
      | head => exact iha
      | tail _ h2 => exact ihas k h2

/-- The conditional stored in a clique (`Clique::conditional()`). -/
def headCond : Clique → Conditional
  | .node c _ => c

/-- The children list of a clique (`Clique::children()`). -/
def childrenOf : Clique → List Clique
  | .node _ ch => ch

mutual
/-- Number of cliques in the subtree (`Clique::treeSize()`:
1 + sum of children's `treeSize()`). -/
def treeSize : Clique → Nat
  | .node _ ch => 1 + treeSizeL ch
def treeSizeL : List Clique → Nat
  | [] => 0
  | k :: ks => treeSize k + treeSizeL ks
end

/-- Number of cliques of the whole tree (`BayesTree::size()`:
`root_ ? root_->treeSize() : 0`). -/
def BayesTree.size : Option Clique → Nat
  | none => 0
  | some r => treeSize r

mutual
/-- All frontal variables of all cliques of a subtree, in preorder.
This is the multiset the nodes index reflects (invariant I5). -/
def allFrontals : Clique → List Var
  | .node c ch => c.frontals ++ allFrontalsL ch
def allFrontalsL : List Clique → List Var
  | [] => []
  | k :: ks => allFrontals k ++ allFrontalsL ks
end

mutual
/-- Whether `v` is frontal in some clique of the subtree. -/
def hasFrontalVar (v : Var) : Clique → Bool
  | .node c ch => decide (v ∈ c.frontals) || hasFrontalVarL v ch
def hasFrontalVarL (v : Var) : List Clique → Bool
  | [] => false
  | k :: ks => hasFrontalVar v k || hasFrontalVarL v ks
end

mutual
theorem hasFrontal_iff_mem : ∀ t : Clique, hasFrontalVar v t = true ↔ v ∈ allFrontals t
  | .node c ch => by
    simp only [hasFrontalVar, allFrontals, Bool.or_eq_true, decide_eq_true_eq,
      List.mem_append, hasFrontalL_iff_mem ch]
theorem hasFrontalL_iff_mem : ∀ l : List Clique, hasFrontalVarL v l = true ↔ v ∈ allFrontalsL l
  | [] => by simp [hasFrontalVarL, allFrontalsL]
  | k :: ks => by
    simp only [hasFrontalVarL, allFrontalsL, Bool.or_eq_true, List.mem_append,
      hasFrontal_iff_mem k, hasFrontalL_iff_mem ks]
end

theorem hasFrontal_false_iff : hasFrontalVar v t = false ↔ v ∉ allFrontals t := by
  rw [← Bool.not_eq_true, not_iff_not]
  exact hasFrontal_iff_mem t

theorem allFrontalsL_append : ∀ a b : List Clique,
    allFrontalsL (a ++ b) = allFrontalsL a ++ allFrontalsL b
  | [], _ => rfl
  | k :: ks, b => by simp [allFrontalsL, allFrontalsL_append ks b]

theorem hasFrontalVarL_append (v : Var) : ∀ a b : List Clique,
    hasFrontalVarL v (a ++ b) = (hasFrontalVarL v a || hasFrontalVarL v b)
  | [], _ => by simp [hasFrontalVarL]
  | k :: ks, b => by
    simp [hasFrontalVarL, hasFrontalVarL_append v ks b, Bool.or_assoc]

mutual
/-- Attach the subtree `o` as the last child of the (top-most, left-most)
clique in which `v` is frontal; identity when `v` is frontal nowhere.
This is the common core of the insertion operations: the attachment clique
is the one the nodes index returns for `v` (`findParentClique`), and a new
child is appended to its `children_` list. -/
def graftPure (v : Var) (o : Clique) : Clique → Clique
  | .node c ch =>
    if v ∈ c.frontals then .node c (ch ++ [o]) else .node c (graftPureL v o ch)
def graftPureL (v : Var) (o : Clique) : List Clique → List Clique
  | [] => []
  | k :: ks =>
    if hasFrontalVar v k then graftPure v o k :: ks else k :: graftPureL v o ks
end

mutual
/-- The conditional of the clique in which `v` is frontal (the lookup the
nodes index performs), `none` when `v` is frontal nowhere. -/
def ownerCond (v : Var) : Clique → Option Conditional
  | .node c ch => if v ∈ c.frontals then some c else ownerCondL v ch
def ownerCondL (v : Var) : List Clique → Option Conditional
  | [] => none
  | k :: ks => if hasFrontalVar v k then ownerCond v k else ownerCondL v ks
end

mutual
theorem graftPure_id (v : Var) (o : Clique) :
    ∀ t : Clique, hasFrontalVar v t = false → graftPure v o t = t
  | .node c ch => by
    simp only [hasFrontalVar, Bool.or_eq_false_iff, decide_eq_false_iff_not, graftPure]
    rintro ⟨h1, h2⟩
    rw [if_neg h1, graftPureL_id v o ch h2]
theorem graftPureL_id (v : Var) (o : Clique) :
    ∀ l : List Clique, hasFrontalVarL v l = false → graftPureL v o l = l
  | [] => by intro; rfl
  | k :: ks => by
    simp only [hasFrontalVarL, Bool.or_eq_false_iff, graftPureL]
    rintro ⟨h1, h2⟩
    rw [if_neg (by simp [h1]), graftPureL_id v o ks h2]
end

/-- Grafting at a clique whose own conditional owns `v` appends to its
children. -/
theorem graftPure_here (v : Var) (o : Clique) (c : Conditional) (ch : List Clique)
    (h : v ∈ c.frontals) : graftPure v o (.node c ch) = .node c (ch ++ [o]) := by
  simp [graftPure, h]

mutual
theorem hasFrontal_graft (w v : Var) (o : Clique) :
    ∀ t : Clique, hasFrontalVar w (graftPure v o t)
      = (hasFrontalVar w t || (hasFrontalVar v t && hasFrontalVar w o))
  | .node c ch => by
    by_cases hv : v ∈ c.frontals
    · rw [graftPure_here v o c ch hv, Bool.eq_iff_iff]
      simp only [hasFrontalVar, hasFrontalVarL_append, hasFrontalVarL, hv,
        Bool.or_eq_true, Bool.and_eq_true, decide_eq_true_eq, decide_True]
      tauto
    · rw [graftPure]
      rw [if_neg hv, Bool.eq_iff_iff]
      simp only [hasFrontalVar, hasFrontalL_graft w v o ch,
        Bool.or_eq_true, Bool.and_eq_true, decide_eq_true_eq, hv]
      tauto
theorem hasFrontalL_graft (w v : Var) (o : Clique) :
    ∀ l : List Clique, hasFrontalVarL w (graftPureL v o l)
      = (hasFrontalVarL w l || (hasFrontalVarL v l && hasFrontalVar w o))
  | [] => by simp [hasFrontalVarL, graftPureL]
  | k :: ks => by
    rw [graftPureL]
    by_cases hv : hasFrontalVar v k
    · rw [if_pos hv, Bool.eq_iff_iff]
      simp only [hasFrontalVarL, hasFrontal_graft w v o k, hv,
        Bool.or_eq_true, Bool.and_eq_true, true_and]
      tauto
    · rw [if_neg hv, Bool.eq_iff_iff]
      simp only [hasFrontalVarL, hasFrontalL_graft w v o ks,
        Bool.or_eq_true, Bool.and_eq_true, hv]
      tauto
end

/-- Grafting at a clique that does not own `v` descends into the children. -/
theorem graftPure_descend (v : Var) (o : Clique) (c : Conditional) (ch : List Clique)
    (h : v ∉ c.frontals) : graftPure v o (.node c ch) = .node c (graftPureL v o ch) := by
  simp [graftPure, h]

theorem perm_rot (a b c : List Var) : List.Perm ((a ++ b) ++ c) ((a ++ c) ++ b) := by
  rw [List.append_assoc, List.append_assoc]
  exact List.Perm.append_left a List.perm_append_comm

mutual
theorem AF_graft (v : Var) (o : Clique) :
    ∀ t : Clique, hasFrontalVar v t = true →
      List.Perm (allFrontals (graftPure v o t)) (allFrontals t ++ allFrontals o)
  | .node c ch => by
    intro hv
    by_cases hf : v ∈ c.frontals
    · rw [graftPure_here v o c ch hf]
      simp only [allFrontals, allFrontalsL_append, allFrontalsL, List.append_nil,
        List.append_assoc]
      exact List.Perm.refl _
    · rw [graftPure, if_neg hf]
      have hl : hasFrontalVarL v ch = true := by
        have := hv
        simp only [hasFrontalVar, Bool.or_eq_true, decide_eq_true_eq] at this
        tauto
      have hp := AFL_graft v o ch hl
      simp only [allFrontals]
      refine (hp.append_left c.frontals).trans ?_
      rw [List.append_assoc]
theorem AFL_graft (v : Var) (o : Clique) :
    ∀ l : List Clique, hasFrontalVarL v l = true →
      List.Perm (allFrontalsL (graftPureL v o l)) (allFrontalsL l ++ allFrontals o)
  | [] => by intro h; simp [hasFrontalVarL] at h
  | k :: ks => by
    intro hv
    rw [graftPureL]
    by_cases hk : hasFrontalVar v k
    · rw [if_pos hk]
      simp only [allFrontalsL]
      have hp := AF_graft v o k hk
      refine (hp.append_right (allFrontalsL ks)).trans ?_
      exact perm_rot (allFrontals k) (allFrontals o) (allFrontalsL ks)
    · rw [if_neg hk]
      have hl : hasFrontalVarL v ks = true := by
        have := hv
        simp only [hasFrontalVarL, Bool.or_eq_true] at this
        rcases this with h | h
        · exact absurd h hk
        · exact h
      simp only [allFrontalsL]
      refine ((AFL_graft v o ks hl).append_left (allFrontals k)).trans ?_
      rw [List.append_assoc]
end

mutual
theorem ownerCond_none (v : Var) :
    ∀ t : Clique, hasFrontalVar v t = false → ownerCond v t = none
  | .node c ch => by
    simp only [hasFrontalVar, Bool.or_eq_false_iff, decide_eq_false_iff_not]
    rintro ⟨h1, h2⟩
    rw [ownerCond, if_neg h1]
    exact ownerCondL_none v ch h2
theorem ownerCondL_none (v : Var) :
    ∀ l : List Clique, hasFrontalVarL v l = false → ownerCondL v l = none
  | [] => by intro; rfl
  | k :: ks => by
    simp only [hasFrontalVarL, Bool.or_eq_false_iff]
    rintro ⟨h1, h2⟩
    rw [ownerCondL, if_neg (by simp [h1]), ownerCondL_none v ks h2]
end

mutual
theorem ownerCond_isSome (v : Var) :
    ∀ t : Clique, hasFrontalVar v t = true → ∃ d, ownerCond v t = some d
  | .node c ch => by
    intro hv
    rw [ownerCond]
    by_cases hf : v ∈ c.frontals
    · exact ⟨c, by rw [if_pos hf]⟩
    · rw [if_neg hf]
      refine ownerCondL_isSome v ch ?_
      have := hv
      simp only [hasFrontalVar, Bool.or_eq_true, decide_eq_true_eq] at this
      tauto
theorem ownerCondL_isSome (v : Var) :
    ∀ l : List Clique, hasFrontalVarL v l = true → ∃ d, ownerCondL v l = some d
  | [] => by intro h; simp [hasFrontalVarL] at h
  | k :: ks => by
    intro hv
    rw [ownerCondL]
    by_cases hk : hasFrontalVar v k
    · rw [if_pos hk]; exact ownerCond_isSome v k hk
    · rw [if_neg hk]
      refine ownerCondL_isSome v ks ?_
      have := hv
      simp only [hasFrontalVarL, Bool.or_eq_true] at this
      rcases this with h | h
      · exact absurd h hk
      · exact h
end

theorem ownerCondL_append_none (w : Var) (a b : List Clique)
    (h : hasFrontalVarL w a = false) : ownerCondL w (a ++ b) = ownerCondL w b := by
  induction a with
  | nil => rfl
  | cons k ks ih =>
    simp only [hasFrontalVarL, Bool.or_eq_false_iff] at h
    rw [List.cons_append, ownerCondL, if_neg (by simp [h.1])]
    exact ih h.2

mutual
/-- Looking up the owner of a variable after grafting a fresh subtree:
the search lands in the grafted subtree. -/
theorem ownerCond_graft (w v : Var) (o : Clique) :
    ∀ t : Clique, hasFrontalVar w t = false → hasFrontalVar v t = true →
      ownerCond w (graftPure v o t) = ownerCond w o
  | .node c ch => by
    intro hw hv
    have hw' := hw
    simp only [hasFrontalVar, Bool.or_eq_false_iff, decide_eq_false_iff_not] at hw'
    obtain ⟨hw1, hw2⟩ := hw'
    by_cases hf : v ∈ c.frontals
    · rw [graftPure_here v o c ch hf, ownerCond, if_neg hw1]
      rw [ownerCondL_append_none w ch [o] hw2, ownerCondL]
      by_cases ho : hasFrontalVar w o
      · rw [if_pos ho]
      · rw [if_neg ho, ownerCondL, ownerCond_none w o (by simp at ho; exact ho)]
    · rw [ownerCond.eq_def]
      simp only [graftPure, if_neg hf]
      rw [if_neg hw1]
      have hl : hasFrontalVarL v ch = true := by
        have := hv
        simp only [hasFrontalVar, Bool.or_eq_true, decide_eq_true_eq] at this
        tauto
      exact ownerCondL_graft w v o ch hw2 hl
theorem ownerCondL_graft (w v : Var) (o : Clique) :
    ∀ l : List Clique, hasFrontalVarL w l = false → hasFrontalVarL v l = true →
      ownerCondL w (graftPureL v o l) = ownerCond w o
  | [] => by intro _ h; simp [hasFrontalVarL] at h
  | k :: ks => by
    intro hw hv
    have hw' := hw
    simp only [hasFrontalVarL, Bool.or_eq_false_iff] at hw'
    obtain ⟨hw1, hw2⟩ := hw'
    rw [graftPureL]
    by_cases hk : hasFrontalVar v k
    · rw [if_pos hk, ownerCondL, hasFrontal_graft w v o k, hw1, hk]
      simp only [Bool.false_or, Bool.true_and]
      by_cases ho : hasFrontalVar w o
      · rw [if_pos ho]
        exact ownerCond_graft w v o k hw1 hk
      · rw [if_neg ho, ownerCondL_none w ks hw2,
          ownerCond_none w o (by simp at ho; exact ho)]
    · rw [if_neg hk, ownerCondL, if_neg (by simp [hw1])]
      have hl : hasFrontalVarL v ks = true := by
        have := hv
        simp only [hasFrontalVarL, Bool.or_eq_true] at this
        rcases this with h | h
        · exact absurd h hk
        · exact h
      exact ownerCondL_graft w v o ks hw2 hl
end

theorem graftPureL_append_left (w : Var) (p : Clique) (a b : List Clique)
    (h : hasFrontalVarL w a = false) :
    graftPureL w p (a ++ b) = a ++ graftPureL w p b := by
  induction a with
  | nil => rfl
  | cons k ks ih =>
    simp only [hasFrontalVarL, Bool.or_eq_false_iff] at h
    rw [List.cons_append, graftPureL, if_neg (by simp [h.1]), ih h.2, List.cons_append]

mutual
/-- Two grafts compose: grafting `p` at a variable `w` that is fresh for the
host tree `h` commutes into the previously grafted subtree `o`. -/
theorem graft_graft (w v : Var) (p o : Clique) :
    ∀ t : Clique, hasFrontalVar w t = false →
      graftPure w p (graftPure v o t) = graftPure v (graftPure w p o) t
  | .node c ch => by
    intro hw
    have hw' := hw
    simp only [hasFrontalVar, Bool.or_eq_false_iff, decide_eq_false_iff_not] at hw'
    obtain ⟨hw1, hw2⟩ := hw'
    by_cases hf : v ∈ c.frontals
    · rw [graftPure_here v o c ch hf, graftPure_here v (graftPure w p o) c ch hf]
      rw [graftPure, if_neg hw1, graftPureL_append_left w p ch [o] hw2]
      rw [graftPureL]
      by_cases ho : hasFrontalVar w o
      · rw [if_pos ho]
      · rw [if_neg ho, graftPure_id w p o (by simp at ho; exact ho)]
        rfl
    · rw [graftPure_descend v o c ch hf, graftPure_descend v (graftPure w p o) c ch hf,
        graftPure_descend w p c (graftPureL v o ch) hw1,
        graft_graftL w v p o ch hw2]
theorem graft_graftL (w v : Var) (p o : Clique) :
    ∀ l : List Clique, hasFrontalVarL w l = false →
      graftPureL w p (graftPureL v o l) = graftPureL v (graftPure w p o) l
  | [] => by intro; rfl
  | k :: ks => by
    intro hw
    have hw' := hw
    simp only [hasFrontalVarL, Bool.or_eq_false_iff] at hw'
    obtain ⟨hw1, hw2⟩ := hw'
    rw [graftPureL]
    by_cases hk : hasFrontalVar v k
    · rw [if_pos hk, graftPureL, hasFrontal_graft w v o k, hw1, hk]
      simp only [Bool.false_or, Bool.true_and]
      by_cases ho : hasFrontalVar w o
      · rw [if_pos ho, graft_graft w v p o k hw1]
        rw [graftPureL, if_pos hk]
      · rw [if_neg ho, graftPureL_id w p ks hw2,
          graftPure_id w p o (by simp at ho; exact ho)]
        rw [graftPureL, if_pos hk]
    · rw [if_neg hk, graftPureL, if_neg (by simp [hw1]), graft_graftL w v p o ks hw2]
      rw [graftPureL, if_neg hk]
end

/-- The error kinds of the component (spec section 7):
`StructuralViolation` and `OutOfRange`. -/
inductive BTError where
  | structuralViolation
  | outOfRange
deriving Repr, DecidableEq

/-- Modelled from the spec: the merge test of construction form (b)
("a conditional joins an existing clique if its separator is already fully
contained in that clique's frontal∪separator set"), read together with I4 —
which makes the separator of a clique-shaped conditional always a subset of
its parent clique's variables — as: the conditional's separator accounts for
the candidate clique's entire frontal∪separator variable set. -/
def sepCoversClique (c d : Conditional) : Bool :=
  d.frontals.all (fun v => v ∈ c.parents) && d.parents.all (fun v => v ∈ c.parents)
    && c.parents.all (fun v => v ∈ d.frontals || v ∈ d.parents)

mutual
/-- Modelled from the spec (`BayesTree::insert(bayesTree, conditional)` and
`addToCliqueFront` / `addClique`, bodies not in the sources): descend to the
clique owning `v` (= the lowest-ordered parent of `c`, as `findParentClique`
returns); if the merge test fires, the conditional joins that clique
(frontals prepended, `addToCliqueFront`), otherwise a fresh clique holding
`c` is appended to its children.  `none` when `v` is frontal nowhere. -/
def insertCondAt (v : Var) (c : Conditional) : Clique → Option Clique
  | .node d ch =>
    if v ∈ d.frontals then
      if sepCoversClique c d then some (.node ⟨c.frontals ++ d.frontals, d.parents⟩ ch)
      else some (.node d (ch ++ [.node c []]))
    else (insertCondAtL v c ch).map (fun ch2 => .node d ch2)
def insertCondAtL (v : Var) (c : Conditional) : List Clique → Option (List Clique)
  | [] => none
  | k :: ks =>
    if hasFrontalVar v k then (insertCondAt v c k).map (fun k2 => k2 :: ks)
    else (insertCondAtL v c ks).map (fun ks2 => k :: ks2)
end

/-- Modelled from the spec: one step of construction form (b); a conditional
with no parents starts a new root clique (displacing any previous root),
otherwise it is inserted at the clique owning its lowest-ordered parent. -/
def insertCondStep (t : Clique) (c : Conditional) : Option Clique :=
  match c.parents.min? with
  | none => some (.node c [t])
  | some v => insertCondAt v c t

/-- Modelled from the spec: `BayesTree(bayesNet)` — construction form (b):
build a tree from a chain of conditionals processed in chain order
(root-most conditional first, as cliques must exist before their children
attach). -/
def buildChain : List Conditional → Option Clique
  | [] => none
  | c :: rest =>
    if c.parents.isEmpty then List.foldlM insertCondStep (Clique.node c []) rest
    else none

/-- Whether some frontal variable of `o` already occurs as a frontal
variable of the tree `t`. -/
def sharesFrontal (t o : Clique) : Bool :=
  (allFrontals o).any (fun v => hasFrontalVar v t)

/-- Modelled from the spec: `BayesTree::insert(sharedClique subtree)` (body
not in the sources): attach a fully built subtree beneath the clique found
via `findParentClique` over the subtree root's separator; fail with
`StructuralViolation` if a frontal variable of the subtree already exists in
the tree, or if the separator cannot be resolved to an existing clique. -/
def insertSubtree (t : Clique) (o : Clique) : Except BTError Clique :=
  if sharesFrontal t o then .error .structuralViolation
  else match (headCond o).parents.min? with
    | none => .error .structuralViolation
    | some v =>
      if hasFrontalVar v t then .ok (graftPure v o t)
      else .error .structuralViolation

/-- Whether the subtree contains one of the keys as a frontal variable,
i.e. whether this clique lies on a path from a contaminated clique to the
root and is itself dissolved by `removeTop`. -/
def anyKeyIn (keys : List Var) (t : Clique) : Bool :=
  keys.any (fun v => hasFrontalVar v t)

mutual
/-- Modelled from the spec: `BayesTree::removeTop(keys, bn, orphans)` (body
not in the sources), by its stated net effect: every clique on a path from a
clique owning one of `keys` to the root is dissolved into its conditional
(collected in preorder into the returned Bayes net), and every subtree
hanging off a dissolved clique that contains no key survives intact as an
orphan. -/
def removeTopAux (keys : List Var) : Clique → List Conditional × List Clique
  | .node c ch =>
    let r := removeTopAuxL keys ch
    (c :: r.1, r.2)
def removeTopAuxL (keys : List Var) : List Clique → List Conditional × List Clique
  | [] => ([], [])
  | k :: ks =>
    let r1 := if anyKeyIn keys k then removeTopAux keys k else ([], [k])
    let r2 := removeTopAuxL keys ks
    (r1.1 ++ r2.1, r1.2 ++ r2.2)
end

/-- Modelled from the spec: `removeTop` at tree level.  When no key is
present in the tree nothing happens; otherwise the root is contaminated and
the whole top region is dissolved, leaving an empty tree. -/
def removeTop (keys : List Var) :
    Option Clique → List Conditional × List Clique × Option Clique
  | none => ([], [], none)
  | some r =>
    if anyKeyIn keys r then ((removeTopAux keys r).1, (removeTopAux keys r).2, none)
    else ([], [], some r)

/-- Re-eliminating the flattened conditionals returned by `removeTop` (with
the original elimination ordering, under which the pure, deterministic
external eliminator reproduces exactly these conditionals) and re-inserting
the returned orphans.  This is the round-trip completion of the spec. -/
def reEliminateAndInsert (bn : List Conditional) (orphans : List Clique) :
    Except BTError Clique :=
  match buildChain bn with
  | none => .error .structuralViolation
  | some t0 => List.foldlM insertSubtree t0 orphans

mutual
/-- The contaminated region of a tree: the tree with every clique containing
no key (together with its subtree) removed.  This is what re-eliminating the
flattened conditionals rebuilds. -/
def pruneR (keys : List Var) : Clique → Clique
  | .node c ch => .node c (pruneRL keys ch)
def pruneRL (keys : List Var) : List Clique → List Clique
  | [] => []
  | k :: ks => (if anyKeyIn keys k then [pruneR keys k] else []) ++ pruneRL keys ks
end

mutual
/-- The shape of the tree after the round trip: at every contaminated
clique, the contaminated children come first (in order), followed by the
re-inserted orphan children (in order). -/
def reshape (keys : List Var) : Clique → Clique
  | .node c ch => .node c (reshapeL keys ch ++ ch.filter (fun k => !anyKeyIn keys k))
def reshapeL (keys : List Var) : List Clique → List Clique
  | [] => []
  | k :: ks => (if anyKeyIn keys k then [reshape keys k] else []) ++ reshapeL keys ks
end

mutual
/-- The conditionals of a subtree in preorder (each clique contributes its
single conditional). -/
def preOrderConds : Clique → List Conditional
  | .node c ch => c :: preOrderCondsL ch
def preOrderCondsL : List Clique → List Conditional
  | [] => []
  | k :: ks => preOrderConds k ++ preOrderCondsL ks
end

/-- A path from the root to a clique: the list of child positions taken. -/
abbrev TreePath := List Nat

/-- The clique reached from `t` by following the child positions of the
path (`none` when the path is invalid). -/
def getClique : Clique → TreePath → Option Clique
  | t, [] => some t
  | .node _ ch, i :: p => (ch[i]?).bind (fun k => getClique k p)

/-- Modelled from the spec: `BayesTree::removePath(clique, bn, orphans)`
(body not in the sources): walk from the clique at the given path up to the
root; every visited clique's conditional is appended to the Bayes net
(root-most first), every child of a visited clique that is not itself on the
walked path moves intact into the orphans, and every visited clique is
removed. -/
def removePathAux : Clique → TreePath → Option (List Conditional × List Clique)
  | .node c ch, [] => some ([c], ch)
  | .node c ch, i :: p =>
    (ch[i]?).bind fun k =>
      (removePathAux k p).map fun r => (c :: r.1, ch.eraseIdx i ++ r.2)

/-- Modelled from the spec: `removePath` at tree level.  The walk always
reaches the root, so the root is always cleared: the remaining tree is
empty. -/
def removePath (t : Option Clique) (p : TreePath) :
    Option (List Conditional × List Clique × Option Clique) :=
  match t with
  | none => none
  | some r => (removePathAux r p).map fun x => (x.1, x.2, none)

/-- Modelled from the spec: `BayesTree::insert(conditional, children,
isRootClique)` (body not in the sources): create a clique from the
conditional, re-parent the given cliques as its children, and become the new
root — displacing and adopting the previous root — when `isRootClique` is
set or no attachment point exists; otherwise attach beneath the clique
owning the conditional's lowest-ordered parent. -/
def insertCliqueOp (c : Conditional) (children : List Clique)
    (isRootClique : Bool) : Option Clique → Clique
  | none => .node c children
  | some r =>
    if isRootClique then .node c (children ++ [r])
    else match c.parents.min? with
      | none => .node c (children ++ [r])
      | some v =>
        if hasFrontalVar v r then graftPure v (.node c children) r
        else .node c (children ++ [r])

/-- Modelled from the spec: `BayesTree::removeClique(clique)` (body not in
the sources): detach the clique at the path from its parent's children; its
own children are not recursed into and become unreachable from the root
(the operation can produce a forest; only the part still connected to the
root remains the tree). -/
def removeCliqueAt : Clique → TreePath → Option (Option Clique)
  | _, [] => some none
  | .node c ch, i :: p =>
    (ch[i]?).bind fun k =>
      (removeCliqueAt k p).map fun k2 =>
        some (.node c (match k2 with
          | none => ch.eraseIdx i
          | some k3 => ch.set i k3))

/-- Constructedness of one parent/child link, as construction form (b)
produces it: the child's separator is nonempty, its lowest-ordered variable
is frontal in the parent clique (so `findParentClique` resolves the child's
separator to its actual parent), and the merge test does not fire (otherwise
construction would have joined the two cliques). -/
def wfChildLink (c : Conditional) (k : Clique) : Bool :=
  !(headCond k).parents.isEmpty &&
  (match (headCond k).parents.min? with
   | some v => decide (v ∈ c.frontals)
   | none => false) &&
  !sepCoversClique (headCond k) c

mutual
/-- All parent/child links of the subtree are constructed links. -/
def wfShape : Clique → Bool
  | .node c ch => wfChildrenShape c ch
def wfChildrenShape (c : Conditional) : List Clique → Bool
  | [] => true
  | k :: ks => wfChildLink c k && wfShape k && wfChildrenShape c ks
end

mutual
/-- Every clique of the subtree has a nonempty frontal list. -/
def wfNE : Clique → Bool
  | .node c ch => !c.frontals.isEmpty && wfNEL ch
def wfNEL : List Clique → Bool
  | [] => true
  | k :: ks => wfNE k && wfNEL ks
end

/-- Invariant I2 (uniqueness): each variable is frontal in at most one
clique — the tree's frontal multiset has no duplicates. -/
def invariantI2 (t : Clique) : Prop := (allFrontals t).Nodup

instance : DecidablePred invariantI2 := fun t =>
  inferInstanceAs (Decidable ((allFrontals t).Nodup))

mutual
/-- Invariant I4 (separator containment): every separator variable of a
clique is frontal or separator in its parent clique. -/
def invariantI4 : Clique → Bool
  | .node c ch => invariantI4L c ch
def invariantI4L (c : Conditional) : List Clique → Bool
  | [] => true
  | k :: ks =>
    (headCond k).parents.all (fun v => v ∈ c.frontals || v ∈ c.parents)
      && invariantI4 k && invariantI4L c ks
end

/-- Sort key of a clique: its lowest frontal variable.  In a tree satisfying
I2 with nonempty frontal lists, keys of distinct cliques are distinct. -/
def cliqueKey (k : Clique) : Nat := ((headCond k).frontals.min?).getD 0

/-- Insertion into a key-sorted list of cliques. -/
def insertByKey (k : Clique) : List Clique → List Clique
  | [] => [k]
  | x :: xs => if cliqueKey k ≤ cliqueKey x then k :: x :: xs else x :: insertByKey k xs

/-- Insertion sort of cliques by key. -/
def sortByKey (l : List Clique) : List Clique := l.foldr insertByKey []

mutual
/-- Canonical form of a clique tree: children sorted by key at every level.
Two trees are structurally equal as trees with unordered children sets (the
spec's data model: "children: unordered collection of owned Cliques")
exactly when their canonical forms coincide. -/
def canon : Clique → Clique
  | .node c ch => .node c (sortByKey (canonL ch))
def canonL : List Clique → List Clique
  | [] => []
  | k :: ks => canon k :: canonL ks
end

theorem canonL_eq_map : ∀ l : List Clique, canonL l = l.map canon
  | [] => rfl
  | k :: ks => by rw [canonL, canonL_eq_map ks, List.map_cons]

theorem perm_insertByKey (k : Clique) :
    ∀ l : List Clique, List.Perm (insertByKey k l) (k :: l)
  | [] => List.Perm.refl _
  | x :: xs => by
    rw [insertByKey]
    by_cases h : cliqueKey k ≤ cliqueKey x
    · rw [if_pos h]
    · rw [if_neg h]
      exact ((perm_insertByKey k xs).cons x).trans (List.Perm.swap k x xs)

theorem perm_sortByKey : ∀ l : List Clique, List.Perm (sortByKey l) l
  | [] => List.Perm.refl _
  | x :: xs =>
    (perm_insertByKey x (sortByKey xs)).trans ((perm_sortByKey xs).cons x)

theorem insertByKey_nil (k : Clique) : insertByKey k [] = [k] := rfl

theorem insertByKey_le (a x : Clique) (xs : List Clique)
    (h : cliqueKey a ≤ cliqueKey x) : insertByKey a (x :: xs) = a :: x :: xs := by
  simp [insertByKey, h]

theorem insertByKey_gt (a x : Clique) (xs : List Clique)
    (h : ¬cliqueKey a ≤ cliqueKey x) : insertByKey a (x :: xs) = x :: insertByKey a xs := by
  simp [insertByKey, h]

theorem insertByKey_comm (a b : Clique) (hab : cliqueKey a ≠ cliqueKey b) :
    ∀ l : List Clique, insertByKey a (insertByKey b l) = insertByKey b (insertByKey a l)
  | [] => by
    rw [insertByKey_nil, insertByKey_nil]
    by_cases h : cliqueKey a ≤ cliqueKey b
    · rw [insertByKey_le a b [] h, insertByKey_gt b a [] (by omega), insertByKey_nil]
    · rw [insertByKey_gt a b [] h, insertByKey_nil,
        insertByKey_le b a [] (by omega)]
  | x :: xs => by
    by_cases ha : cliqueKey a ≤ cliqueKey x <;> by_cases hb : cliqueKey b ≤ cliqueKey x
    · rw [insertByKey_le b x xs hb, insertByKey_le a x xs ha]
      by_cases h : cliqueKey a ≤ cliqueKey b
      · rw [insertByKey_le a b _ h, insertByKey_gt b a _ (by omega),
          insertByKey_le b x xs hb]
      · rw [insertByKey_gt a b _ h, insertByKey_le a x xs ha,
          insertByKey_le b a _ (by omega)]
    · rw [insertByKey_gt b x xs hb, insertByKey_le a x xs ha,
        insertByKey_le a x (insertByKey b xs) ha,
        insertByKey_gt b a (x :: xs) (by omega), insertByKey_gt b x xs hb]
    · rw [insertByKey_le b x xs hb, insertByKey_gt a x xs ha,
        insertByKey_gt a b (x :: xs) (by omega), insertByKey_gt a x xs ha,
        insertByKey_le b x (insertByKey a xs) hb]
    · rw [insertByKey_gt b x xs hb, insertByKey_gt a x _ ha, insertByKey_gt a x xs ha,
        insertByKey_gt b x _ hb, insertByKey_comm a b hab xs]

theorem sortByKey_cons (x : Clique) (l : List Clique) :
    sortByKey (x :: l) = insertByKey x (sortByKey l) := rfl

/-- Sorting by key is invariant under permutation when keys are distinct. -/
theorem sortByKey_perm_eq : ∀ {l1 l2 : List Clique}, List.Perm l1 l2 →
    (l1.map cliqueKey).Nodup → sortByKey l1 = sortByKey l2 := by
  intro l1 l2 h
  induction h with
  | nil => intro; rfl
  | cons x hp ih =>
    intro hn
    simp only [List.map_cons, List.nodup_cons] at hn
    rw [sortByKey_cons, sortByKey_cons, ih hn.2]
  | swap x y l =>
    intro hn
    simp only [List.map_cons, List.nodup_cons, List.mem_cons] at hn
    rw [sortByKey_cons, sortByKey_cons, sortByKey_cons, sortByKey_cons,
      insertByKey_comm y x (fun he => hn.1 (Or.inl he)) (sortByKey l)]
  | trans h1 h2 ih1 ih2 =>
    intro hn
    rw [ih1 hn, ih2 (hn.perm (h1.map cliqueKey))]

theorem cliqueKey_canon : ∀ t : Clique, cliqueKey (canon t) = cliqueKey t
  | .node _ _ => rfl

theorem headCond_canon : ∀ t : Clique, headCond (canon t) = headCond t
  | .node _ _ => rfl

theorem cliqueKey_mem_AF (k : Clique) (hne : wfNE k = true) :
    cliqueKey k ∈ allFrontals k := by
  rcases k with ⟨c, ch⟩
  rw [wfNE] at hne
  simp only [Bool.and_eq_true, Bool.not_eq_true'] at hne
  have h1 : c.frontals ≠ [] := by
    intro he
    rw [he] at hne
    simp at hne
  rcases hm : c.frontals.min? with _ | m
  · exact absurd (List.min?_eq_none_iff.mp hm) h1
  · have := (List.min?_eq_some_iff'.mp hm).1
    simp only [cliqueKey, headCond, hm, Option.getD_some]
    simp only [allFrontals, List.mem_append]
    exact Or.inl this

theorem mem_AFL_of_mem (l : List Clique) (k : Clique) (hk : k ∈ l) :
    ∀ x ∈ allFrontals k, x ∈ allFrontalsL l := by
  induction hk with
  | head ms =>
    intro x hx
    rw [allFrontalsL]
    exact List.mem_append.mpr (Or.inl hx)
  | tail b hm ih =>
    intro x hx
    rw [allFrontalsL]
    exact List.mem_append.mpr (Or.inr (ih x hx))

theorem AFL_nodup_mem (l : List Clique) (k : Clique) (hk : k ∈ l) :
    (allFrontalsL l).Nodup → (allFrontals k).Nodup := by
  induction hk with
  | head ms =>
    intro hn
    rw [allFrontalsL, List.nodup_append] at hn
    exact hn.1
  | tail b hm ih =>
    intro hn
    rw [allFrontalsL, List.nodup_append] at hn
    exact ih hn.2.1

theorem wfNEL_mem (l : List Clique) (k : Clique) (hk : k ∈ l) :
    wfNEL l = true → wfNE k = true := by
  induction hk with
  | head ms =>
    intro hn
    rw [wfNEL] at hn
    simp only [Bool.and_eq_true] at hn
    exact hn.1
  | tail b hm ih =>
    intro hn
    rw [wfNEL] at hn
    simp only [Bool.and_eq_true] at hn
    exact ih hn.2

/-- In a tree satisfying I2 with nonempty frontal lists, the keys of a list
of disjoint subtrees are distinct. -/
theorem keysNodup_of_AFL : ∀ l : List Clique, (allFrontalsL l).Nodup →
    wfNEL l = true → (l.map cliqueKey).Nodup
  | [] => by intro _ _; simp
  | k :: ks => by
    intro hnd hne
    rw [allFrontalsL, List.nodup_append] at hnd
    rw [wfNEL] at hne
    simp only [Bool.and_eq_true] at hne
    rw [List.map_cons, List.nodup_cons]
    constructor
    · intro hmem
      rcases List.mem_map.mp hmem with ⟨m, hm, he⟩
      have h1 : cliqueKey k ∈ allFrontals k := cliqueKey_mem_AF k hne.1
      have h2 : cliqueKey k ∈ allFrontalsL ks := by
        rw [← he]
        exact mem_AFL_of_mem ks m hm (cliqueKey m)
          (cliqueKey_mem_AF m (wfNEL_mem ks m hm hne.2))
      exact hnd.2.2 h1 h2
    · exact keysNodup_of_AFL ks hnd.2.1 hne.2

theorem reshapeL_eq (keys : List Var) : ∀ l : List Clique,
    reshapeL keys l = (l.filter (fun k => anyKeyIn keys k)).map (reshape keys)
  | [] => rfl
  | k :: ks => by
    rw [reshapeL, reshapeL_eq keys ks, List.filter_cons]
    by_cases h : anyKeyIn keys k
    · simp [h]
    · simp [h]

theorem pruneRL_eq (keys : List Var) : ∀ l : List Clique,
    pruneRL keys l = (l.filter (fun k => anyKeyIn keys k)).map (pruneR keys)
  | [] => rfl
  | k :: ks => by
    rw [pruneRL, pruneRL_eq keys ks, List.filter_cons]
    by_cases h : anyKeyIn keys k
    · simp [h]
    · simp [h]

/-- The round-trip shape is canonically equal to the original tree: the
re-inserted orphans land in their original positions up to reordering of
children. -/
theorem canon_reshape (keys : List Var) : ∀ t : Clique, invariantI2 t →
    wfNE t = true → canon (reshape keys t) = canon t := by
  intro t
  induction t using Clique.myInduction with
  | h c ch ih =>
    intro h2 hne
    have hch : (allFrontalsL ch).Nodup := by
      rw [invariantI2, allFrontals, List.nodup_append] at h2
      exact h2.2.1
    have hnech : wfNEL ch = true := by
      rw [wfNE] at hne
      simp only [Bool.and_eq_true] at hne
      exact hne.2
    rw [reshape, canon, canon]
    have hmc : ∀ k ∈ ch.filter (fun k => anyKeyIn keys k), canon (reshape keys k) = canon k := by
      intro k hk
      have hk2 := (List.mem_filter.mp hk).1
      exact ih k hk2 (AFL_nodup_mem ch k hk2 hch) (wfNEL_mem ch k hk2 hnech)
    have e1 : canonL (reshapeL keys ch ++ ch.filter (fun k => !anyKeyIn keys k))
        = (ch.filter (fun k => anyKeyIn keys k)).map canon
          ++ (ch.filter (fun k => !anyKeyIn keys k)).map canon := by
      rw [canonL_eq_map, List.map_append, reshapeL_eq, List.map_map]
      congr 1
      exact List.map_congr_left (fun k hk => hmc k hk)
    rw [e1]
    congr 1
    refine sortByKey_perm_eq ?_ ?_
    · rw [canonL_eq_map]
      rw [← List.map_append]
      exact (List.filter_append_perm _ ch).map canon
    · rw [← List.map_append]
      have : ((ch.filter (fun k => anyKeyIn keys k) ++ ch.filter (fun k => !anyKeyIn keys k)).map canon).map cliqueKey
          = (ch.filter (fun k => anyKeyIn keys k) ++ ch.filter (fun k => !anyKeyIn keys k)).map cliqueKey := by
        rw [List.map_map]
        exact List.map_congr_left (fun k _ => cliqueKey_canon k)
      rw [this]
      exact (keysNodup_of_AFL ch hch hnech).perm
        ((List.filter_append_perm _ ch).map cliqueKey).symm

mutual
/-- When the owner of `v` exists and the merge test does not fire, inserting
a conditional is exactly grafting a fresh leaf clique at the owner. -/
theorem insertCondAt_graft (v : Var) (c : Conditional) :
    ∀ t : Clique, hasFrontalVar v t = true →
      (∀ d, ownerCond v t = some d → sepCoversClique c d = false) →
      insertCondAt v c t = some (graftPure v (.node c []) t)
  | .node d ch => by
    intro hv hcov
    by_cases hf : v ∈ d.frontals
    · have hd : ownerCond v (.node d ch) = some d := by rw [ownerCond, if_pos hf]
      rw [insertCondAt, if_pos hf, if_neg (by simp [hcov d hd]), graftPure_here v _ d ch hf]
    · have hl : hasFrontalVarL v ch = true := by
        have := hv
        simp only [hasFrontalVar, Bool.or_eq_true, decide_eq_true_eq] at this
        tauto
      have hcov2 : ∀ d2, ownerCondL v ch = some d2 → sepCoversClique c d2 = false := by
        intro d2 hd2
        refine hcov d2 ?_
        rw [ownerCond, if_neg hf]
        exact hd2
      rw [insertCondAt, if_neg hf, insertCondAtL_graft v c ch hl hcov2,
        graftPure_descend v _ d ch hf]
      rfl
theorem insertCondAtL_graft (v : Var) (c : Conditional) :
    ∀ l : List Clique, hasFrontalVarL v l = true →
      (∀ d, ownerCondL v l = some d → sepCoversClique c d = false) →
      insertCondAtL v c l = some (graftPureL v (.node c []) l)
  | [] => by intro h; simp [hasFrontalVarL] at h
  | k :: ks => by
    intro hv hcov
    by_cases hk : hasFrontalVar v k
    · have hcov2 : ∀ d, ownerCond v k = some d → sepCoversClique c d = false := by
        intro d hd
        refine hcov d ?_
        rw [ownerCondL, if_pos hk]
        exact hd
      rw [insertCondAtL, if_pos hk, insertCondAt_graft v c k hk hcov2, Option.map_some',
        graftPureL, if_pos hk]
    · have hl : hasFrontalVarL v ks = true := by
        have := hv
        simp only [hasFrontalVarL, Bool.or_eq_true] at this
        rcases this with h | h
        · exact absurd h hk
        · exact h
      have hcov2 : ∀ d, ownerCondL v ks = some d → sepCoversClique c d = false := by
        intro d hd
        refine hcov d ?_
        rw [ownerCondL, if_neg hk]
        exact hd
      rw [insertCondAtL, if_neg hk, insertCondAtL_graft v c ks hl hcov2, Option.map_some',
        graftPureL, if_neg hk]
end

/-- The statement of the chain-rebuild induction: inserting the preorder
conditionals of a constructed region `R` into a host tree that owns the
region root's lowest separator variable grafts the entire region there. -/
def MLProp (R : Clique) : Prop :=
  ∀ (host : Clique) (rest : List Conditional) (v : Var),
    wfShape R = true →
    (headCond R).parents.min? = some v →
    (allFrontals host ++ allFrontals R).Nodup →
    hasFrontalVar v host = true →
    (∀ d, ownerCond v host = some d → sepCoversClique (headCond R) d = false) →
    List.foldlM insertCondStep host (preOrderConds R ++ rest)
      = List.foldlM insertCondStep (graftPure v R host) rest

theorem wfChildLink_elim (c : Conditional) (k : Clique) (h : wfChildLink c k = true) :
    ∃ vk, (headCond k).parents.min? = some vk ∧ vk ∈ c.frontals ∧
      sepCoversClique (headCond k) c = false := by
  rw [wfChildLink] at h
  simp only [Bool.and_eq_true, Bool.not_eq_true'] at h
  obtain ⟨⟨_, h2⟩, h3⟩ := h
  rcases hm : (headCond k).parents.min? with _ | vk
  · rw [hm] at h2; simp at h2
  · rw [hm] at h2
    simp only [decide_eq_true_eq] at h2
    exact ⟨vk, rfl, h2, h3⟩

/-- Folding the preorder conditionals of constructed child regions into a
host that exposes the parent conditional `c` grafts the regions one by one
as children of `c`'s clique. -/
theorem genMLL (c : Conditional) (A0 : List Var) (F : List Clique → Clique)
    (hAF : ∀ done, List.Perm (allFrontals (F done)) (A0 ++ c.frontals ++ allFrontalsL done))
    (hGr : ∀ done o u, u ∈ c.frontals → u ∉ A0 → graftPure u o (F done) = F (done ++ [o]))
    (hOw : ∀ done u, u ∈ c.frontals → u ∉ A0 → ownerCond u (F done) = some c) :
    ∀ (todo done : List Clique) (rest : List Conditional),
      (∀ k ∈ todo, MLProp k) →
      wfChildrenShape c todo = true →
      (A0 ++ c.frontals ++ allFrontalsL (done ++ todo)).Nodup →
      List.foldlM insertCondStep (F done) (preOrderCondsL todo ++ rest)
        = List.foldlM insertCondStep (F (done ++ todo)) rest := by
  intro todo
  induction todo with
  | nil =>
    intro done rest _ _ _
    rw [preOrderCondsL, List.nil_append, List.append_nil]
  | cons k ks ih =>
    intro done rest hml hwf hnd
    rw [wfChildrenShape] at hwf
    simp only [Bool.and_eq_true] at hwf
    obtain ⟨⟨hlink, hsk⟩, hwfks⟩ := hwf
    obtain ⟨vk, hvkmin, hvkc, hvkcov⟩ := wfChildLink_elim c k hlink
    have hnd' : ((((A0 ++ c.frontals) ++ allFrontalsL done) ++ allFrontals k)
        ++ allFrontalsL ks).Nodup := by
      have := hnd
      rw [allFrontalsL_append] at this
      rw [allFrontalsL] at this
      simp only [← List.append_assoc] at this
      exact this
    have hpre : (((A0 ++ c.frontals) ++ allFrontalsL done) ++ allFrontals k).Nodup :=
      hnd'.sublist (List.sublist_append_left _ _)
    have hvkA0 : vk ∉ A0 := by
      intro hin
      have hd := (List.nodup_append.mp hpre).2.2
      have h1 : vk ∈ ((A0 ++ c.frontals) ++ allFrontalsL done) := by
        refine List.mem_append.mpr (Or.inl (List.mem_append.mpr (Or.inl hin)))
      have hd2 := (List.nodup_append.mp (List.nodup_append.mp
        (List.nodup_append.mp hpre).1).1).2.2
      exact hd2 hin hvkc
    have hndFk : (allFrontals (F done) ++ allFrontals k).Nodup :=
      hpre.perm ((hAF done).append_right (allFrontals k)).symm
    have hhasFk : hasFrontalVar vk (F done) = true := by
      rw [hasFrontal_iff_mem]
      refine ((hAF done).mem_iff).mpr ?_
      exact List.mem_append.mpr (Or.inl (List.mem_append.mpr (Or.inr hvkc)))
    have hcovFk : ∀ d, ownerCond vk (F done) = some d →
        sepCoversClique (headCond k) d = false := by
      intro d hd
      rw [hOw done vk hvkc hvkA0] at hd
      injection hd with hd
      rw [← hd]
      exact hvkcov
    rw [preOrderCondsL, List.append_assoc]
    rw [hml k (List.mem_cons_self k ks) (F done) (preOrderCondsL ks ++ rest) vk hsk
      hvkmin hndFk hhasFk hcovFk]
    rw [hGr done k vk hvkc hvkA0]
    have hnd2 : (A0 ++ c.frontals ++ allFrontalsL ((done ++ [k]) ++ ks)).Nodup := by
      rw [List.append_assoc done [k] ks, List.singleton_append]
      exact hnd
    rw [ih (done ++ [k]) rest (fun m hm => hml m (List.mem_cons_of_mem k hm)) hwfks hnd2]
    rw [List.append_assoc done [k] ks, List.singleton_append]

/-- Inserting the preorder conditionals of a constructed region into a host
owning the region's lowest separator variable grafts the region intact. -/
theorem ml_main : ∀ R : Clique, MLProp R := by
  intro R
  induction R using Clique.myInduction with
  | h c ch ih =>
    intro host rest v hwf hmin hnd hhas hcov
    simp only [headCond] at hmin hcov
    rw [wfShape] at hwf
    have hstep : insertCondStep host c = some (graftPure v (.node c []) host) := by
      rw [insertCondStep, hmin]
      exact insertCondAt_graft v c host hhas hcov
    rw [preOrderConds, List.cons_append, List.foldlM_cons, hstep]
    have hbind : ∀ (x : Clique) (f : Clique → Option Clique),
        (some x >>= f) = f x := fun _ _ => rfl
    rw [hbind]
    have hgen := genMLL c (allFrontals host)
      (fun done => graftPure v (Clique.node c done) host)
      (by
        intro done
        have hg := AF_graft v (Clique.node c done) host hhas
        simp only [allFrontals] at hg
        rw [List.append_assoc]
        exact hg)
      (by
        intro done o u huc huA0
        have hfu : hasFrontalVar u host = false := hasFrontal_false_iff.mpr huA0
        rw [graft_graft u v o (Clique.node c done) host hfu,
          graftPure_here u o c done huc])
      (by
        intro done u huc huA0
        have hfu : hasFrontalVar u host = false := hasFrontal_false_iff.mpr huA0
        rw [ownerCond_graft u v (Clique.node c done) host hfu hhas, ownerCond, if_pos huc])
      ch [] rest ih hwf
      (by
        rw [List.nil_append]
        have := hnd
        rw [allFrontals] at this
        simp only [← List.append_assoc] at this ⊢
        exact this)
    simp only [List.nil_append] at hgen
    exact hgen

theorem headCond_prune (keys : List Var) : ∀ t, headCond (pruneR keys t) = headCond t
  | .node _ _ => rfl

theorem wfChildLink_prune (keys : List Var) (c : Conditional) (k : Clique) :
    wfChildLink c (pruneR keys k) = wfChildLink c k := by
  rw [wfChildLink, wfChildLink, headCond_prune]

mutual
theorem wfShape_prune (keys : List Var) :
    ∀ t, wfShape t = true → wfShape (pruneR keys t) = true
  | .node c ch => by
    rw [wfShape, pruneR, wfShape]
    exact wfChildrenShape_prune keys c ch
theorem wfChildrenShape_prune (keys : List Var) (c : Conditional) :
    ∀ l, wfChildrenShape c l = true → wfChildrenShape c (pruneRL keys l) = true
  | [] => by intro h; exact h
  | k :: ks => by
    intro h
    rw [wfChildrenShape] at h
    simp only [Bool.and_eq_true] at h
    obtain ⟨⟨hlink, hsk⟩, hks⟩ := h
    rw [pruneRL]
    by_cases hk : anyKeyIn keys k
    · rw [if_pos hk, List.singleton_append, wfChildrenShape]
      simp only [Bool.and_eq_true]
      exact ⟨⟨by rw [wfChildLink_prune]; exact hlink, wfShape_prune keys k hsk⟩,
        wfChildrenShape_prune keys c ks hks⟩
    · rw [if_neg hk, List.nil_append]
      exact wfChildrenShape_prune keys c ks hks
end

mutual
theorem AF_prune_sub (keys : List Var) :
    ∀ t, List.Sublist (allFrontals (pruneR keys t)) (allFrontals t)
  | .node c ch => by
    rw [pruneR, allFrontals, allFrontals]
    exact (List.Sublist.refl c.frontals).append (AFL_prune_sub keys ch)
theorem AFL_prune_sub (keys : List Var) :
    ∀ l, List.Sublist (allFrontalsL (pruneRL keys l)) (allFrontalsL l)
  | [] => List.Sublist.refl _
  | k :: ks => by
    rw [pruneRL, allFrontalsL]
    by_cases hk : anyKeyIn keys k
    · rw [if_pos hk, List.singleton_append, allFrontalsL]
      exact (AF_prune_sub keys k).append (AFL_prune_sub keys ks)
    · rw [if_neg hk, List.nil_append]
      exact List.Sublist.trans (AFL_prune_sub keys ks) (List.sublist_append_right _ _)
end

mutual
theorem removeTopAux_bn (keys : List Var) :
    ∀ t, (removeTopAux keys t).1 = preOrderConds (pruneR keys t)
  | .node c ch => by
    simp only [removeTopAux, pruneR, preOrderConds]
    rw [removeTopAuxL_bn keys ch]
theorem removeTopAuxL_bn (keys : List Var) :
    ∀ l, (removeTopAuxL keys l).1 = preOrderCondsL (pruneRL keys l)
  | [] => rfl
  | k :: ks => by
    simp only [removeTopAuxL, pruneRL]
    by_cases hk : anyKeyIn keys k
    · simp only [if_pos hk, List.singleton_append, preOrderCondsL]
      rw [removeTopAux_bn keys k, removeTopAuxL_bn keys ks]
    · simp only [if_neg hk, List.nil_append]
      rw [removeTopAuxL_bn keys ks]
end

/-- Re-eliminating the flattened conditionals of the contaminated region
(in the original order) rebuilds exactly the pruned region. -/
theorem buildChain_preOrder (R : Clique) (hwf : wfShape R = true)
    (hroot : (headCond R).parents = []) (hnd : (allFrontals R).Nodup) :
    buildChain (preOrderConds R) = some R := by
  rcases R with ⟨c, ch⟩
  simp only [headCond] at hroot
  rw [preOrderConds, buildChain, if_pos (by rw [hroot]; rfl)]
  rw [wfShape] at hwf
  have hgen := genMLL c [] (fun done => Clique.node c done)
    (by
      intro done
      rw [List.nil_append, allFrontals])
    (by intro done o u huc _; exact graftPure_here u o c done huc)
    (by intro done u huc _; rw [ownerCond, if_pos huc])
    ch [] [] (fun k _ => ml_main k) hwf
    (by
      rw [List.nil_append, List.nil_append]
      have := hnd
      rw [allFrontals] at this
      exact this)
  simp only [List.nil_append, List.append_nil] at hgen
  rw [hgen]
  rfl

theorem graftPureL_middle (u : Var) (o : Clique) (L1 : List Clique) (s : Clique)
    (L2 : List Clique) (h1 : hasFrontalVarL u L1 = false) (hs : hasFrontalVar u s = true) :
    graftPureL u o (L1 ++ s :: L2) = L1 ++ graftPure u o s :: L2 := by
  rw [graftPureL_append_left u o L1 (s :: L2) h1, graftPureL, if_pos hs]

theorem graftPure_middle (u : Var) (o : Clique) (c : Conditional) (L1 : List Clique)
    (s : Clique) (L2 : List Clique) (hc : u ∉ c.frontals)
    (h1 : hasFrontalVarL u L1 = false) (hs : hasFrontalVar u s = true) :
    graftPure u o (.node c (L1 ++ s :: L2)) = .node c (L1 ++ graftPure u o s :: L2) := by
  rw [graftPure_descend u o c _ hc, graftPureL_middle u o L1 s L2 h1 hs]

theorem AFL_middle (a : List Clique) (s : Clique) (b : List Clique) :
    allFrontalsL (a ++ s :: b) = allFrontalsL a ++ (allFrontals s ++ allFrontalsL b) := by
  rw [allFrontalsL_append, allFrontalsL]

theorem AFL_sublist : ∀ {l1 l2 : List Clique}, List.Sublist l1 l2 →
    List.Sublist (allFrontalsL l1) (allFrontalsL l2) := by
  intro l1 l2 h
  induction h with
  | slnil => exact List.Sublist.refl _
  | cons a _ ih =>
    rw [allFrontalsL]
    exact List.Sublist.trans ih (List.sublist_append_right _ _)
  | cons₂ a _ ih =>
    rw [allFrontalsL, allFrontalsL]
    exact (List.Sublist.refl _).append ih

theorem reshapeL_append (keys : List Var) : ∀ a b : List Clique,
    reshapeL keys (a ++ b) = reshapeL keys a ++ reshapeL keys b
  | [], _ => rfl
  | k :: ks, b => by
    rw [List.cons_append, reshapeL, reshapeL, reshapeL_append keys ks b, List.append_assoc]

mutual
/-- `reshape` only reorders children: the frontal multiset is preserved. -/
theorem AF_reshape (keys : List Var) : ∀ t : Clique,
    List.Perm (allFrontals (reshape keys t)) (allFrontals t)
  | .node c ch => by
    rw [reshape, allFrontals, allFrontals]
    exact (AFL_reshape_split keys ch).append_left c.frontals
theorem AFL_reshape_split (keys : List Var) : ∀ l : List Clique,
    List.Perm (allFrontalsL (reshapeL keys l ++ l.filter (fun k => !anyKeyIn keys k)))
      (allFrontalsL l)
  | [] => List.Perm.refl _
  | k :: ks => by
    rw [reshapeL, List.filter_cons]
    by_cases hk : anyKeyIn keys k
    · rw [if_pos hk, if_neg (by simp [hk]), List.singleton_append, List.cons_append,
        allFrontalsL, allFrontalsL]
      exact (AF_reshape keys k).append (AFL_reshape_split keys ks)
    · rw [if_neg hk, if_pos (by simp only [Bool.not_eq_true] at hk; simp [hk]),
        List.nil_append, AFL_middle, allFrontalsL]
      refine List.Perm.trans ?_ ((AFL_reshape_split keys ks).append_left (allFrontals k))
      rw [allFrontalsL_append]
      rw [List.perm_iff_count]
      intro a
      simp only [List.count_append]
      omega
end

mutual
/-- The pruned region and the orphans partition the tree's frontal
variables. -/
theorem AF_partition (keys : List Var) : ∀ t : Clique,
    List.Perm (allFrontals (pruneR keys t) ++ allFrontalsL (removeTopAux keys t).2)
      (allFrontals t)
  | .node c ch => by
    simp only [pruneR, removeTopAux, allFrontals]
    rw [List.append_assoc]
    exact (AFL_partition keys ch).append_left c.frontals
theorem AFL_partition (keys : List Var) : ∀ l : List Clique,
    List.Perm (allFrontalsL (pruneRL keys l) ++ allFrontalsL (removeTopAuxL keys l).2)
      (allFrontalsL l)
  | [] => List.Perm.refl _
  | k :: ks => by
    simp only [pruneRL, removeTopAuxL]
    by_cases hk : anyKeyIn keys k
    · simp only [if_pos hk, allFrontalsL_append, allFrontalsL, List.append_nil,
        List.nil_append, allFrontalsL]
      refine List.Perm.trans ?_
        ((AF_partition keys k).append (AFL_partition keys ks))
      rw [List.perm_iff_count]
      intro a
      simp only [List.count_append]
      omega
    · simp only [if_neg hk, allFrontalsL_append, allFrontalsL, List.append_nil,
        List.nil_append, allFrontalsL]
      refine List.Perm.trans ?_
        ((AFL_partition keys ks).append_left (allFrontals k))
      rw [List.perm_iff_count]
      intro a
      simp only [List.count_append]
      omega
end

theorem mem_AFL_reshapeL (keys : List Var) (l : List Clique) (x : Var)
    (hx : x ∈ allFrontalsL (reshapeL keys l)) : x ∈ allFrontalsL l := by
  refine (AFL_reshape_split keys l).mem_iff.mp ?_
  rw [allFrontalsL_append]
  exact List.mem_append.mpr (Or.inl hx)

theorem mem_AFL_filter (p : Clique → Bool) (l : List Clique) (x : Var)
    (hx : x ∈ allFrontalsL (l.filter p)) : x ∈ allFrontalsL l :=
  (AFL_sublist (List.filter_sublist l)).subset hx

theorem mem_AFL_pruneRL (keys : List Var) (l : List Clique) (x : Var)
    (hx : x ∈ allFrontalsL (pruneRL keys l)) : x ∈ allFrontalsL l :=
  (AFL_prune_sub keys l).subset hx

theorem sharesFrontal_false (t o : Clique)
    (h : ∀ x ∈ allFrontals o, hasFrontalVar x t = false) :
    sharesFrontal t o = false := by
  rw [sharesFrontal]
  rw [List.any_eq_false]
  intro x hx
  simp [h x hx]

/-- When the tree owns the orphan root's lowest separator variable and no
frontal variable is duplicated, re-inserting the orphan is exactly a graft. -/
theorem insertSubtree_graft (t o : Clique) (v : Var)
    (hmin : (headCond o).parents.min? = some v)
    (hsh : sharesFrontal t o = false)
    (hhas : hasFrontalVar v t = true) :
    insertSubtree t o = .ok (graftPure v o t) := by
  rw [insertSubtree, if_neg (by simp [hsh]), hmin]
  simp only [hhas, if_true]

theorem nodup_extract (A0 cf dn afk ks : List Var)
    (h : ((A0 ++ cf ++ dn) ++ (afk ++ ks)).Nodup) :
    ∀ x ∈ afk, x ∉ A0 ∧ x ∉ cf ∧ x ∉ dn ∧ x ∉ ks := by
  intro x hx
  rw [List.nodup_append] at h
  have h1 : x ∉ A0 ++ cf ++ dn := fun hin => h.2.2 hin (List.mem_append.mpr (Or.inl hx))
  have h2 := (List.nodup_append.mp h.2.1).2.2
  simp only [List.mem_append] at h1
  push_neg at h1
  exact ⟨h1.1.1, h1.1.2, h1.2, fun ha => h2 hx ha⟩

/-- The statement of the orphan re-insertion induction: folding the orphans
of a contaminated subtree into any host that embeds the pruned region
reproduces the host with the region reshaped (orphans re-attached at their
parents, after the surviving contaminated children). -/
def PH2Prop (keys : List Var) (t : Clique) : Prop :=
  ∀ (A0 : List Var) (F : Clique → Clique),
    (∀ s, List.Perm (allFrontals (F s)) (A0 ++ allFrontals s)) →
    (∀ s o u, hasFrontalVar u s = true → u ∉ A0 →
      graftPure u o (F s) = F (graftPure u o s)) →
    wfShape t = true →
    (A0 ++ allFrontals t).Nodup →
    List.foldlM insertSubtree (F (pruneR keys t)) (removeTopAux keys t).2
      = Except.ok (F (reshape keys t))

theorem hasFrontalL_false_iff {v : Var} {l : List Clique} :
    hasFrontalVarL v l = false ↔ v ∉ allFrontalsL l := by
  rw [← Bool.not_eq_true, not_iff_not]
  exact hasFrontalL_iff_mem l

theorem exceptBind_ok (x : Clique) (f : Clique → Except BTError Clique) :
    ((Except.ok x : Except BTError Clique) >>= f) = f x := rfl

/-- Folding the orphan groups of the children of a clique `c` into a host
embedding the partially reshaped region re-attaches every orphan beneath its
original parent. -/
theorem genPH2L (keys : List Var) (c : Conditional) (A0 : List Var) (F : Clique → Clique)
    (hFA : ∀ s, List.Perm (allFrontals (F s)) (A0 ++ allFrontals s))
    (hFG : ∀ s o u, hasFrontalVar u s = true → u ∉ A0 →
      graftPure u o (F s) = F (graftPure u o s)) :
    ∀ (todo done : List Clique),
      (∀ k ∈ todo, PH2Prop keys k) →
      wfChildrenShape c todo = true →
      ((A0 ++ c.frontals ++ allFrontalsL done) ++ allFrontalsL todo).Nodup →
      List.foldlM insertSubtree
        (F (.node c (reshapeL keys done ++ (pruneRL keys todo
          ++ done.filter (fun m => !anyKeyIn keys m)))))
        (removeTopAuxL keys todo).2
      = Except.ok (F (.node c (reshapeL keys (done ++ todo)
          ++ (done ++ todo).filter (fun m => !anyKeyIn keys m)))) := by
  intro todo
  induction todo with
  | nil =>
    intro done _ _ _
    simp only [removeTopAuxL, pruneRL, List.nil_append, List.append_nil, List.foldlM_nil]
    rfl
  | cons k ks ih =>
    intro done hml hwf hnd
    rw [wfChildrenShape] at hwf
    simp only [Bool.and_eq_true] at hwf
    obtain ⟨⟨hlink, hsk⟩, hks⟩ := hwf
    obtain ⟨vk, hvkmin, hvkc, _⟩ := wfChildLink_elim c k hlink
    have hndflat : ((A0 ++ c.frontals ++ allFrontalsL done)
        ++ (allFrontals k ++ allFrontalsL ks)).Nodup := by
      have := hnd
      rw [allFrontalsL] at this
      exact this
    have hdisj := nodup_extract A0 c.frontals (allFrontalsL done) (allFrontals k)
      (allFrontalsL ks) hndflat
    have hndA0cf : (A0 ++ c.frontals).Nodup := by
      have h1 : (A0 ++ c.frontals ++ allFrontalsL done).Nodup :=
        hndflat.sublist (List.sublist_append_left _ _)
      exact h1.sublist (List.sublist_append_left _ _)
    have hvkA0 : vk ∉ A0 := fun ha => (List.nodup_append.mp hndA0cf).2.2 ha hvkc
    have hndnext : ((A0 ++ c.frontals ++ allFrontalsL (done ++ [k]))
        ++ allFrontalsL ks).Nodup := by
      refine hndflat.perm ?_
      rw [allFrontalsL_append, allFrontalsL, allFrontalsL, List.append_nil]
      rw [List.perm_iff_count]
      intro a
      simp only [List.count_append]
      omega
    by_cases hk : anyKeyIn keys k
    · -- contaminated child: recurse into its region with the extended host
      have hmid : reshapeL keys done ++ (pruneRL keys (k :: ks)
            ++ done.filter (fun m => !anyKeyIn keys m))
          = reshapeL keys done ++ pruneR keys k
            :: (pruneRL keys ks ++ done.filter (fun m => !anyKeyIn keys m)) := by
        rw [pruneRL, if_pos hk, List.singleton_append, List.cons_append]
      have e2 : List.Perm (allFrontalsL (reshapeL keys done)
          ++ allFrontalsL (done.filter (fun m => !anyKeyIn keys m)))
          (allFrontalsL done) := by
        rw [← allFrontalsL_append]
        exact AFL_reshape_split keys done
      have hF'A : ∀ s, List.Perm
          (allFrontals (F (.node c (reshapeL keys done
            ++ s :: (pruneRL keys ks ++ done.filter (fun m => !anyKeyIn keys m))))))
          ((A0 ++ c.frontals ++ allFrontalsL (reshapeL keys done)
            ++ allFrontalsL (pruneRL keys ks ++ done.filter (fun m => !anyKeyIn keys m)))
            ++ allFrontals s) := by
        intro s
        refine (hFA _).trans ?_
        rw [allFrontals, AFL_middle]
        simp only [allFrontalsL_append]
        rw [List.perm_iff_count]
        intro a
        simp only [List.count_append]
        omega
      have hF'G : ∀ s o u, hasFrontalVar u s = true →
          u ∉ (A0 ++ c.frontals ++ allFrontalsL (reshapeL keys done)
            ++ allFrontalsL (pruneRL keys ks ++ done.filter (fun m => !anyKeyIn keys m))) →
          graftPure u o (F (.node c (reshapeL keys done
            ++ s :: (pruneRL keys ks ++ done.filter (fun m => !anyKeyIn keys m)))))
          = F (.node c (reshapeL keys done
            ++ graftPure u o s :: (pruneRL keys ks
              ++ done.filter (fun m => !anyKeyIn keys m)))) := by
        intro s o u hus huA
        simp only [List.mem_append] at huA
        push_neg at huA
        have hu0 : u ∉ A0 := huA.1.1.1
        have hucf : u ∉ c.frontals := huA.1.1.2
        have huL1 : hasFrontalVarL u (reshapeL keys done) = false :=
          hasFrontalL_false_iff.mpr huA.1.2
        have hsmem : hasFrontalVar u (Clique.node c (reshapeL keys done
            ++ s :: (pruneRL keys ks
              ++ done.filter (fun m => !anyKeyIn keys m)))) = true := by
          rw [hasFrontal_iff_mem, allFrontals, AFL_middle]
          refine List.mem_append.mpr (Or.inr (List.mem_append.mpr (Or.inr
            (List.mem_append.mpr (Or.inl ?_)))))
          exact (hasFrontal_iff_mem s).mp hus
        rw [hFG _ o u hsmem hu0, graftPure_middle u o c _ s _ hucf huL1 hus]
      have hnd' : ((A0 ++ c.frontals ++ allFrontalsL (reshapeL keys done)
            ++ allFrontalsL (pruneRL keys ks
              ++ done.filter (fun m => !anyKeyIn keys m)))
          ++ allFrontals k).Nodup := by
        have hbig : ((A0 ++ c.frontals) ++ (allFrontalsL done
            ++ (allFrontals k ++ allFrontalsL ks))).Nodup := by
          refine hndflat.perm ?_
          rw [List.perm_iff_count]
          intro a
          simp only [List.count_append]
          omega
        have hmid2 : ((A0 ++ c.frontals) ++ (allFrontalsL done
            ++ (allFrontals k ++ allFrontalsL (pruneRL keys ks)))).Nodup := by
          refine hbig.sublist ?_
          exact (List.Sublist.refl _).append ((List.Sublist.refl _).append
            ((List.Sublist.refl _).append (AFL_prune_sub keys ks)))
        refine hmid2.perm ?_
        rw [allFrontalsL_append]
        refine List.Perm.trans (List.Perm.append_left (A0 ++ c.frontals)
          ((e2.symm).append_right (allFrontals k ++ allFrontalsL (pruneRL keys ks)))) ?_
        rw [List.perm_iff_count]
        intro a
        simp only [List.count_append]
        omega
      have hIH := hml k (List.mem_cons_self k ks)
        (A0 ++ c.frontals ++ allFrontalsL (reshapeL keys done)
          ++ allFrontalsL (pruneRL keys ks ++ done.filter (fun m => !anyKeyIn keys m)))
        (fun s => F (.node c (reshapeL keys done
          ++ s :: (pruneRL keys ks ++ done.filter (fun m => !anyKeyIn keys m)))))
        hF'A hF'G hsk hnd'
      have hIH2 : List.foldlM insertSubtree
          (F (.node c (reshapeL keys done
            ++ pruneR keys k :: (pruneRL keys ks
              ++ done.filter (fun m => !anyKeyIn keys m)))))
          (removeTopAux keys k).2
          = Except.ok (F (.node c (reshapeL keys done
            ++ reshape keys k :: (pruneRL keys ks
              ++ done.filter (fun m => !anyKeyIn keys m))))) := hIH
      have hstate : F (.node c (reshapeL keys done
            ++ reshape keys k :: (pruneRL keys ks
              ++ done.filter (fun m => !anyKeyIn keys m))))
          = F (.node c (reshapeL keys (done ++ [k]) ++ (pruneRL keys ks
            ++ (done ++ [k]).filter (fun m => !anyKeyIn keys m)))) := by
        rw [reshapeL_append, List.filter_append, reshapeL, if_pos hk, reshapeL,
          List.filter_cons, if_neg (by simp [hk]), List.filter_nil, List.append_nil,
          List.append_nil, List.append_assoc, List.singleton_append]
      simp only [removeTopAuxL, if_pos hk]
      rw [hmid, List.foldlM_append, hIH2, exceptBind_ok, hstate]
      have hfin := ih (done ++ [k]) (fun m hm => hml m (List.mem_cons_of_mem k hm))
        hks hndnext
      rw [List.append_assoc done [k] ks, List.singleton_append] at hfin
      exact hfin
    · -- uncontaminated child: it is an orphan, re-grafted beneath `c`
      have hprl : pruneRL keys (k :: ks) = pruneRL keys ks := by
        rw [pruneRL, if_neg hk, List.nil_append]
      have hkmem : ∀ x ∈ allFrontals k, hasFrontalVar x
          (F (.node c (reshapeL keys done ++ (pruneRL keys ks
            ++ done.filter (fun m => !anyKeyIn keys m))))) = false := by
        intro x hx
        obtain ⟨hx0, hxcf, hxdn, hxks⟩ := hdisj x hx
        rw [hasFrontal_false_iff]
        intro hmem
        have := (hFA _).mem_iff.mp hmem
        rw [List.mem_append] at this
        rcases this with h | h
        · exact hx0 h
        · rw [allFrontals, List.mem_append] at h
          rcases h with h | h
          · exact hxcf h
          · rw [allFrontalsL_append, List.mem_append] at h
            rcases h with h | h
            · exact hxdn (mem_AFL_reshapeL keys done x h)
            · rw [allFrontalsL_append, List.mem_append] at h
              rcases h with h | h
              · exact hxks (mem_AFL_pruneRL keys ks x h)
              · exact hxdn (mem_AFL_filter _ done x h)
      have hhasvk : hasFrontalVar vk
          (F (.node c (reshapeL keys done ++ (pruneRL keys ks
            ++ done.filter (fun m => !anyKeyIn keys m))))) = true := by
        rw [hasFrontal_iff_mem]
        refine (hFA _).mem_iff.mpr ?_
        refine List.mem_append.mpr (Or.inr ?_)
        rw [allFrontals]
        exact List.mem_append.mpr (Or.inl hvkc)
      have hstep := insertSubtree_graft _ k vk hvkmin
        (sharesFrontal_false _ k hkmem) hhasvk
      have hmidhas : hasFrontalVar vk (Clique.node c (reshapeL keys done
          ++ (pruneRL keys ks ++ done.filter (fun m => !anyKeyIn keys m)))) = true := by
        rw [hasFrontal_iff_mem, allFrontals]
        exact List.mem_append.mpr (Or.inl hvkc)
      have hgr := hFG (Clique.node c (reshapeL keys done
          ++ (pruneRL keys ks ++ done.filter (fun m => !anyKeyIn keys m)))) k vk
        hmidhas hvkA0
      rw [graftPure_here vk k c _ hvkc] at hgr
      have hkf : anyKeyIn keys k = false := by
        simp only [Bool.not_eq_true] at hk
        exact hk
      have hstate : F (.node c ((reshapeL keys done ++ (pruneRL keys ks
            ++ done.filter (fun m => !anyKeyIn keys m))) ++ [k]))
          = F (.node c (reshapeL keys (done ++ [k]) ++ (pruneRL keys ks
            ++ (done ++ [k]).filter (fun m => !anyKeyIn keys m)))) := by
        simp [reshapeL_append, List.filter_append, reshapeL, List.filter_cons, hkf]
      simp only [removeTopAuxL, if_neg hk]
      rw [hprl, List.singleton_append, List.foldlM_cons, hstep, exceptBind_ok,
        hgr, hstate]
      have hfin := ih (done ++ [k]) (fun m hm => hml m (List.mem_cons_of_mem k hm))
        hks hndnext
      rw [List.append_assoc done [k] ks, List.singleton_append] at hfin
      exact hfin

/-- Re-inserting all orphans of `removeTop` into the rebuilt region yields
the reshaped tree. -/
theorem ph2_main (keys : List Var) : ∀ t : Clique, PH2Prop keys t := by
  intro t
  induction t using Clique.myInduction with
  | h c ch ih =>
    intro A0 F hFA hFG hwf hnd
    rw [wfShape] at hwf
    have hgen := genPH2L keys c A0 F hFA hFG ch [] ih hwf
      (by
        simp only [allFrontalsL, List.append_nil]
        have := hnd
        rw [allFrontals] at this
        simp only [← List.append_assoc] at this ⊢
        exact this)
    simp only [reshapeL, List.filter_nil, List.nil_append, List.append_nil] at hgen
    simp only [pruneR, removeTopAux, reshape]
    exact hgen

/-- The complete round trip: `removeTop` followed by re-elimination of the
flattened conditionals and re-insertion of the orphans reproduces the tree
up to reordering of the (unordered) children collections. -/
theorem removeTop_roundTrip (r : Clique) (ks : List Var)
    (hwf : wfShape r = true) (hne : wfNE r = true) (h2 : invariantI2 r)
    (hroot : (headCond r).parents = [])
    (hks : ks ≠ []) (hpres : ∀ k ∈ ks, hasFrontalVar k r = true) :
    ∃ t2,
      removeTop ks (some r) = ((removeTopAux ks r).1, (removeTopAux ks r).2, none) ∧
      reEliminateAndInsert (removeTopAux ks r).1 (removeTopAux ks r).2
        = Except.ok t2 ∧
      canon t2 = canon r := by
  have hany : anyKeyIn ks r = true := by
    rcases ks with _ | ⟨k, ks2⟩
    · exact absurd rfl hks
    · rw [anyKeyIn, List.any_eq_true]
      exact ⟨k, List.mem_cons_self k ks2, hpres k (List.mem_cons_self k ks2)⟩
  refine ⟨reshape ks r, ?_, ?_, canon_reshape ks r h2 hne⟩
  · rw [removeTop, if_pos hany]
  · have hb : buildChain (removeTopAux ks r).1 = some (pruneR ks r) := by
      rw [removeTopAux_bn]
      refine buildChain_preOrder (pruneR ks r) (wfShape_prune ks r hwf) ?_ ?_
      · rw [headCond_prune]
        exact hroot
      · exact h2.sublist (AF_prune_sub ks r)
    rw [reEliminateAndInsert, hb]
    have hph := ph2_main ks r [] (fun s => s)
      (by intro s; rw [List.nil_append])
      (by intro s o u _ _; rfl)
      hwf
      (by rw [List.nil_append]; exact h2)
    exact hph

/-- A factor (`FactorType`): an unnormalized function over a variable set;
structurally, its variable set. -/
structure BTFactor where
  vars : List Var
deriving Repr, DecidableEq

/-- `Factor::clone()`: a deep copy of the factor. -/
def BTFactor.clone (f : BTFactor) : BTFactor := ⟨f.vars⟩

/-- A clique together with its optional cached factor (`cachedFactor_`),
used for the claims about cloning and permutation. -/
inductive CClique where
  | node : Conditional → Option BTFactor → List CClique → CClique
deriving Repr

/-- Strong induction principle for `CClique`. -/
theorem CClique.strongRecOn (P : CClique → Prop)
    (h : ∀ c cf ch, (∀ k ∈ ch, P k) → P (.node c cf ch)) : ∀ x, P x := by
  intro x
  induction x using CClique.rec (motive_2 := fun l => ∀ k ∈ l, P k) with
  | node c cf ch ih => exact h c cf ch ih
  | nil => rename_i k hk; exact absurd hk (List.not_mem_nil k)
  | cons a as iha ihas =>
      rename_i k hk
      cases hk with
      | head => exact iha
      | tail _ h2 => exact ihas k h2

mutual
/-- `Clique::cloneToBayesTree` (header lines 84-96): copy the conditional
(`new CONDITIONAL(*conditional_)`), clone the cached factor when present
and set a null pointer otherwise, then recurse over the children; a clique
cloned without a parent becomes the new tree's root.  The helper
`addClique(conditional, parent)` — body not in the sources — is modelled
from the spec as: create the clique and append it to the parent's
children. -/
def cloneToBayesTree : CClique → CClique
  | .node c cf ch => .node c (cf.map BTFactor.clone) (cloneToBayesTreeL ch)
def cloneToBayesTreeL : List CClique → List CClique
  | [] => []
  | k :: ks => cloneToBayesTree k :: cloneToBayesTreeL ks
end

/-- `BayesTree::cloneTo` (header lines 282-284):
`root_->cloneToBayesTree(*newTree)` dereferences `root_` unconditionally;
the null dereference on an empty tree is modelled as `none`. -/
def cloneTo : Option CClique → Option (Option CClique)
  | none => none
  | some r => some (some (cloneToBayesTree r))

mutual
theorem cloneToBayesTree_id : ∀ t : CClique, cloneToBayesTree t = t
  | .node c cf ch => by
    rw [cloneToBayesTree, cloneToBayesTreeL_id ch]
    cases cf with
    | none => rfl
    | some f => rfl
theorem cloneToBayesTreeL_id : ∀ l : List CClique, cloneToBayesTreeL l = l
  | [] => rfl
  | k :: ks => by rw [cloneToBayesTreeL, cloneToBayesTree_id k, cloneToBayesTreeL_id ks]
end

/-- Relabel every variable of a conditional through the mapping. -/
def Conditional.permuteWith (m : Var → Var) (c : Conditional) : Conditional :=
  ⟨c.frontals.map m, c.parents.map m⟩

mutual
/-- Modelled from the spec: `Clique::permuteWithInverse(inversePermutation)`
(body not in the sources): relabel every variable reference — frontal,
separator, and cached factor — throughout the entire subtree, visiting
every clique. -/
def permuteWithInverse (m : Var → Var) : CClique → CClique
  | .node c cf ch =>
    .node (c.permuteWith m) (cf.map (fun f => ⟨f.vars.map m⟩))
      (permuteWithInverseL m ch)
def permuteWithInverseL (m : Var → Var) : List CClique → List CClique
  | [] => []
  | k :: ks => permuteWithInverse m k :: permuteWithInverseL m ks
end

/-- Tree-level permutation: permute the root's whole subtree. -/
def treePermuteWithInverse (m : Var → Var) : Option CClique → Option CClique
  | none => none
  | some r => some (permuteWithInverse m r)

mutual
theorem permuteWithInverse_id : ∀ t : CClique, permuteWithInverse (fun v => v) t = t
  | .node c cf ch => by
    rw [permuteWithInverse, permuteWithInverseL_id ch]
    cases cf with
    | none => simp [Conditional.permuteWith]
    | some f => simp [Conditional.permuteWith]
theorem permuteWithInverseL_id : ∀ l : List CClique, permuteWithInverseL (fun v => v) l = l
  | [] => rfl
  | k :: ks => by
    rw [permuteWithInverseL, permuteWithInverse_id k, permuteWithInverseL_id ks]
end

mutual
theorem permuteWithInverse_comp (m1 m2 : Var → Var) : ∀ t : CClique,
    permuteWithInverse m2 (permuteWithInverse m1 t)
      = permuteWithInverse (fun v => m2 (m1 v)) t
  | .node c cf ch => by
    rw [permuteWithInverse, permuteWithInverse, permuteWithInverse,
      permuteWithInverseL_comp m1 m2 ch]
    cases cf with
    | none => simp [Conditional.permuteWith]
    | some f => simp [Conditional.permuteWith]
theorem permuteWithInverseL_comp (m1 m2 : Var → Var) : ∀ l : List CClique,
    permuteWithInverseL m2 (permuteWithInverseL m1 l)
      = permuteWithInverseL (fun v => m2 (m1 v)) l
  | [] => rfl
  | k :: ks => by
    rw [permuteWithInverseL, permuteWithInverseL, permuteWithInverseL,
      permuteWithInverse_comp m1 m2 k, permuteWithInverseL_comp m1 m2 ks]
end

/-- The four data members of `struct Clique` as the inline `equals` sees
them: nullable `conditional_`, the (weak) parent pointer modelled by its
presence, the `children_` list, the nullable `cachedFactor_`. -/
structure CliqueFields where
  conditional : Option Conditional
  parentPresent : Bool
  children : List CClique
  cachedFactor : Option BTFactor

/-- `Clique::equals` (header lines 146-149), translated literally:
`(!conditional_ && !other.conditional()) || conditional_->equals(*(other.conditional()), tol)`.
When both conditionals are absent the first disjunct returns `true`; when
both are present the second disjunct evaluates the tolerance-based
conditional equality (the external capability `eqc`); when exactly one is
absent, the second disjunct dereferences a null pointer — modelled as
`none`. -/
def cliqueEquals (eqc : Conditional → Conditional → Bool) (a b : CliqueFields) :
    Option Bool :=
  match a.conditional, b.conditional with
  | none, none => some true
  | some x, some y => some (eqc x y)
  | _, _ => none

/-- Modelled from the spec: the external elimination engine as `shortcut`
uses it — combine the given conditionals into a factor graph over the kept
and conditioning variables and eliminate, keeping `keep` as the frontal
variables of the produced conditional, conditioned on variables drawn from
`given`.  The engine is opaque; only this signature contract is assumed. -/
abbrev ShortcutElim := List Conditional → List Var → List Var → Conditional

/-- Modelled from the spec: `Clique::shortcut(root, eliminate)` = P(S|Root)
(body not in the sources).  The clique's position is given by the chain of
conditionals of its strict ancestors below the root, parent first.  Base
case — the chain is empty, i.e. the clique is the root or its parent is the
root — : the empty (identity) conditional.  Recursive case: combine the
parent's shortcut with the parent's own conditional into a factor graph and
eliminate, keeping the clique's separator, conditioned on the root's
frontal variables. -/
def shortcut (elim : ShortcutElim) (rootFrontals : List Var) :
    List Conditional → List Var → Conditional
  | [], _ => ⟨[], []⟩
  | pc :: rest, sep =>
    elim [shortcut elim rootFrontals rest pc.parents, pc] sep rootFrontals

/-- The tree together with its explicit nodes index: `std::deque<sharedClique>
nodes_`, mapping a variable (by position) to the possibly-null shared
pointer of the clique in which it is frontal. -/
structure BayesTreeIx where
  root : Option Clique
  nodes : List (Option Clique)

/-- `BayesTree::operator[]` (header lines 309-311): `return nodes_.at(key);`.
`std::deque::at` returns the stored entry when the key is within range and
throws `std::out_of_range` otherwise. -/
def BayesTreeIx.opIndex (t : BayesTreeIx) (key : Nat) : Except BTError (Option Clique) :=
  if h : key < t.nodes.length then .ok (t.nodes.get ⟨key, h⟩)
  else .error .outOfRange

/-- Modelled from the spec: the index update of `removeClique` — the
removed clique's frontal variables are removed from the index.  The deque
keeps its length; the removed entries become null shared pointers. -/
def clearKeys (nodes : List (Option Clique)) (ks : List Var) : List (Option Clique) :=
  nodes.enum.map (fun p => if p.1 ∈ ks then none else p.2)

mutual
/-- The path (list of child positions) from the subtree root to the clique
in which `v` is frontal, `none` when `v` is frontal nowhere: the clique the
nodes index returns for `v`, given positionally. -/
def ownerPath (v : Var) : Clique → Option TreePath
  | .node c ch => if v ∈ c.frontals then some [] else ownerPathL v 0 ch
def ownerPathL (v : Var) (i : Nat) : List Clique → Option TreePath
  | [] => none
  | k :: ks =>
    match ownerPath v k with
    | some p => some (i :: p)
    | none => ownerPathL v (i + 1) ks
end

/-- `BayesTree::findParentClique(parents)` (header lines 286-291, body not
in the sources), modelled from the header comment: "It will look at all
parents and return the one with the lowest index in the ordering" — the
lowest-ordered variable of the collection; its owning clique is the
attachment point. -/
def findParentClique (parents : List Var) : Option Var := parents.min?

mutual
theorem treeSize_graft (v : Var) (o : Clique) :
    ∀ t : Clique, hasFrontalVar v t = true →
      treeSize (graftPure v o t) = treeSize t + treeSize o
  | .node c ch => by
    intro hv
    by_cases hf : v ∈ c.frontals
    · rw [graftPure_here v o c ch hf, treeSize, treeSize]
      have : ∀ l : List Clique, treeSizeL (l ++ [o]) = treeSizeL l + treeSize o := by
        intro l
        induction l with
        | nil => simp [treeSizeL]
        | cons x xs ih => simp [treeSizeL, ih]; omega
      rw [this]
      omega
    · rw [graftPure_descend v o c ch hf, treeSize, treeSize]
      have hl : hasFrontalVarL v ch = true := by
        have := hv
        simp only [hasFrontalVar, Bool.or_eq_true, decide_eq_true_eq] at this
        tauto
      rw [treeSizeL_graft v o ch hl]
      omega
theorem treeSizeL_graft (v : Var) (o : Clique) :
    ∀ l : List Clique, hasFrontalVarL v l = true →
      treeSizeL (graftPureL v o l) = treeSizeL l + treeSize o
  | [] => by intro h; simp [hasFrontalVarL] at h
  | k :: ks => by
    intro hv
    rw [graftPureL]
    by_cases hk : hasFrontalVar v k
    · rw [if_pos hk, treeSizeL, treeSizeL, treeSize_graft v o k hk]
      omega
    · rw [if_neg hk, treeSizeL, treeSizeL]
      have hl : hasFrontalVarL v ks = true := by
        have := hv
        simp only [hasFrontalVarL, Bool.or_eq_true] at this
        rcases this with h | h
        · exact absurd h hk
        · exact h
      rw [treeSizeL_graft v o ks hl]
      omega
end

mutual
theorem AF_insertCondAt (v : Var) (c : Conditional) :
    ∀ (t t2 : Clique), insertCondAt v c t = some t2 →
      List.Perm (allFrontals t2) (c.frontals ++ allFrontals t)
  | .node d ch, t2 => by
    intro h
    rw [insertCondAt] at h
    by_cases hf : v ∈ d.frontals
    · rw [if_pos hf] at h
      by_cases hm : sepCoversClique c d
      · rw [if_pos hm] at h
        injection h with h
        rw [← h, allFrontals, allFrontals]
        rw [List.perm_iff_count]
        intro a
        simp only [List.count_append]
        omega
      · rw [if_neg hm] at h
        injection h with h
        rw [← h, allFrontals, allFrontals, allFrontalsL_append, allFrontalsL,
          allFrontalsL, allFrontals, allFrontalsL]
        rw [List.perm_iff_count]
        intro a
        simp only [List.count_append, List.count_nil]
        omega
    · rw [if_neg hf] at h
      rcases hl : insertCondAtL v c ch with _ | ch2
      · rw [hl] at h; simp at h
      · rw [hl] at h
        simp only [Option.map_some'] at h
        injection h with h
        rw [← h, allFrontals, allFrontals]
        refine ((AFL_insertCondAt v c ch ch2 hl).append_left d.frontals).trans ?_
        rw [List.perm_iff_count]
        intro a
        simp only [List.count_append]
        omega
theorem AFL_insertCondAt (v : Var) (c : Conditional) :
    ∀ (l l2 : List Clique), insertCondAtL v c l = some l2 →
      List.Perm (allFrontalsL l2) (c.frontals ++ allFrontalsL l)
  | [], _ => by intro h; simp [insertCondAtL] at h
  | k :: ks, l2 => by
    intro h
    rw [insertCondAtL] at h
    by_cases hk : hasFrontalVar v k
    · rw [if_pos hk] at h
      rcases hc : insertCondAt v c k with _ | k2
      · rw [hc] at h; simp at h
      · rw [hc] at h
        simp only [Option.map_some'] at h
        injection h with h
        rw [← h, allFrontalsL, allFrontalsL]
        refine ((AF_insertCondAt v c k k2 hc).append_right (allFrontalsL ks)).trans ?_
        rw [List.perm_iff_count]
        intro a
        simp only [List.count_append]
        omega
    · rw [if_neg hk] at h
      rcases hc : insertCondAtL v c ks with _ | ks2
      · rw [hc] at h; simp at h
      · rw [hc] at h
        simp only [Option.map_some'] at h
        injection h with h
        rw [← h, allFrontalsL, allFrontalsL]
        refine ((AFL_insertCondAt v c ks ks2 hc).append_left (allFrontals k)).trans ?_
        rw [List.perm_iff_count]
        intro a
        simp only [List.count_append]
        omega
end

theorem AF_insertCondStep (t t2 : Clique) (c : Conditional)
    (h : insertCondStep t c = some t2) :
    List.Perm (allFrontals t2) (c.frontals ++ allFrontals t) := by
  rw [insertCondStep] at h
  rcases hm : c.parents.min? with _ | v
  · rw [hm] at h
    injection h with h
    rw [← h, allFrontals, allFrontalsL, allFrontalsL, List.append_nil]
  · rw [hm] at h
    exact AF_insertCondAt v c t t2 h

/-- The frontal variables contributed by a chain of conditionals. -/
def chainFrontals : List Conditional → List Var
  | [] => []
  | c :: cs => c.frontals ++ chainFrontals cs

theorem optionBind_none (f : Clique → Option Clique) :
    ((none : Option Clique) >>= f) = none := rfl

theorem optionBind_some (x : Clique) (f : Clique → Option Clique) :
    ((some x : Option Clique) >>= f) = f x := rfl

theorem exceptBind_err (e : BTError) (f : Clique → Except BTError Clique) :
    ((Except.error e : Except BTError Clique) >>= f) = .error e := rfl

theorem AF_foldChain : ∀ (cs : List Conditional) (acc r : Clique),
    List.foldlM insertCondStep acc cs = some r →
    List.Perm (allFrontals r) (chainFrontals cs ++ allFrontals acc)
  | [], acc, r => by
    intro h
    rw [List.foldlM_nil] at h
    injection h with h
    rw [← h, chainFrontals, List.nil_append]
  | c :: cs, acc, r => by
    intro h
    rw [List.foldlM_cons] at h
    rcases hs : insertCondStep acc c with _ | mid
    · rw [hs, optionBind_none] at h
      exact Option.noConfusion h
    · rw [hs, optionBind_some] at h
      refine (AF_foldChain cs mid r h).trans ?_
      refine List.Perm.trans ((AF_insertCondStep acc mid c hs).append_left
        (chainFrontals cs)) ?_
      rw [chainFrontals]
      rw [List.perm_iff_count]
      intro a
      simp only [List.count_append]
      omega

/-- Inversion of a successful subtree insertion. -/
theorem insertSubtree_inv (t o t2 : Clique) (h : insertSubtree t o = .ok t2) :
    ∃ v, (headCond o).parents.min? = some v ∧ hasFrontalVar v t = true ∧
      sharesFrontal t o = false ∧ t2 = graftPure v o t := by
  rw [insertSubtree] at h
  split at h
  · exact Except.noConfusion h
  · rename_i hsh
    split at h
    · exact Except.noConfusion h
    · rename_i v hm
      split at h
      · rename_i hhas
        injection h with h
        refine ⟨v, hm, hhas, ?_, h.symm⟩
        simp only [Bool.not_eq_true] at hsh
        exact hsh
      · exact Except.noConfusion h

theorem AF_foldSubtrees : ∀ (subs : List Clique) (acc r : Clique),
    List.foldlM insertSubtree acc subs = .ok r →
    List.Perm (allFrontals r) (allFrontals acc ++ allFrontalsL subs)
  | [], acc, r => by
    intro h
    rw [List.foldlM_nil] at h
    injection h with h
    rw [← h, allFrontalsL, List.append_nil]
  | o :: subs, acc, r => by
    intro h
    rw [List.foldlM_cons] at h
    rcases hs : insertSubtree acc o with e | mid
    · rw [hs, exceptBind_err] at h
      exact Except.noConfusion h
    · rw [hs] at h
      rw [exceptBind_ok] at h
      obtain ⟨v, _, hhas, _, hmid⟩ := insertSubtree_inv acc o mid hs
      refine (AF_foldSubtrees subs mid r h).trans ?_
      rw [allFrontalsL]
      refine List.Perm.trans (((hmid ▸ AF_graft v o acc hhas)).append_right
        (allFrontalsL subs)) ?_
      rw [List.perm_iff_count]
      intro a
      simp only [List.count_append]
      omega

/-- The frontal multiset of an optional root. -/
def AFopt : Option Clique → List Var
  | none => []
  | some r => allFrontals r

/-- Invariant I2 for a whole tree: each variable is frontal in at most one
clique, i.e. the frontal multiset has no duplicates (together with the
derived nodes index, spec I5, this is "each variable is frontal in exactly
one clique"). -/
def invariantI2opt (t : Option Clique) : Prop := (AFopt t).Nodup

theorem AF_insertCliqueOp (c : Conditional) (chl : List Clique) (flag : Bool)
    (t : Option Clique) :
    List.Perm (allFrontals (insertCliqueOp c chl flag t))
      (c.frontals ++ allFrontalsL chl ++ AFopt t) := by
  rcases t with _ | r
  · rw [insertCliqueOp, AFopt, allFrontals, List.append_nil]
  · rw [insertCliqueOp, AFopt]
    by_cases hf : flag
    · rw [if_pos hf, allFrontals, allFrontalsL_append, allFrontalsL, allFrontalsL,
        List.append_nil]
      rw [List.perm_iff_count]
      intro a
      simp only [List.count_append]
      omega
    · rw [if_neg hf]
      split
      · rw [allFrontals, allFrontalsL_append, allFrontalsL, allFrontalsL,
          List.append_nil]
        rw [List.perm_iff_count]
        intro a
        simp only [List.count_append]
        omega
      · rename_i v hm
        split
        · rename_i hhas
          refine (AF_graft v (.node c chl) r hhas).trans ?_
          rw [allFrontals]
          rw [List.perm_iff_count]
          intro a
          simp only [List.count_append]
          omega
        · rw [allFrontals, allFrontalsL_append, allFrontalsL,
            allFrontalsL, List.append_nil]
          rw [List.perm_iff_count]
          intro a
          simp only [List.count_append]
          omega

theorem AFL_set_sublist : ∀ (l : List Clique) (i : Nat) (k k2 : Clique),
    l[i]? = some k → List.Sublist (allFrontals k2) (allFrontals k) →
    List.Sublist (allFrontalsL (l.set i k2)) (allFrontalsL l)
  | [], i, k, k2 => by intro h; simp at h
  | m :: ms, 0, k, k2 => by
    intro h hs
    simp only [List.getElem?_cons_zero] at h
    injection h with h
    rw [List.set_cons_zero, allFrontalsL, allFrontalsL]
    exact (h ▸ hs).append (List.Sublist.refl _)
  | m :: ms, i + 1, k, k2 => by
    intro h hs
    simp only [List.getElem?_cons_succ] at h
    rw [List.set_cons_succ, allFrontalsL, allFrontalsL]
    exact (List.Sublist.refl _).append (AFL_set_sublist ms i k k2 h hs)

theorem AF_removeCliqueAt : ∀ (p : TreePath) (t : Clique) (t2 : Option Clique),
    removeCliqueAt t p = some t2 → List.Sublist (AFopt t2) (allFrontals t)
  | [], t, t2 => by
    intro h
    rw [removeCliqueAt] at h
    injection h with h
    rw [← h, AFopt]
    exact List.nil_sublist _
  | i :: p, .node c ch, t2 => by
    intro h
    rw [removeCliqueAt] at h
    rcases hc : ch[i]? with _ | k
    · rw [hc] at h; simp at h
    · rw [hc] at h
      simp only [Option.some_bind] at h
      rcases hr : removeCliqueAt k p with _ | k2
      · rw [hr] at h; simp at h
      · rw [hr] at h
        simp only [Option.map_some'] at h
        injection h with h
        rw [← h, AFopt, allFrontals]
        refine (List.Sublist.refl c.frontals).append ?_
        rcases k2 with _ | k3
        · have := List.eraseIdx_sublist ch i
          exact AFL_sublist this
        · exact AFL_set_sublist ch i k k3 hc (AF_removeCliqueAt p k (some k3) hr)

theorem optionBind_eq_some {x : Option Clique} {f : Clique → Option Clique} {b : Clique}
    (h : (x >>= f) = some b) : ∃ a, x = some a ∧ f a = some b := by
  rcases x with _ | a
  · exact absurd h (by simp)
  · exact ⟨a, rfl, h⟩

/-- The full specification of `removePath`'s walk: the returned Bayes net
holds exactly the conditionals of the cliques on the path from the root
down to the target (one per visited clique), and the orphans are exactly
the subtrees hanging off the visited cliques that are not themselves on the
walked path, each moved intact. -/
theorem removePathAux_spec : ∀ (p : TreePath) (r tgt : Clique),
    getClique r p = some tgt →
    ∃ bn os, removePathAux r p = some (bn, os) ∧
      bn.length = p.length + 1 ∧
      (∀ q, List.IsPrefix q p → ∃ cq, getClique r q = some cq ∧ headCond cq ∈ bn) ∧
      (∀ o ∈ os, ∃ q i, List.IsPrefix q p ∧ ¬ List.IsPrefix (q ++ [i]) p ∧
        getClique r (q ++ [i]) = some o) ∧
      (∀ q i k, List.IsPrefix q p → ¬ List.IsPrefix (q ++ [i]) p →
        getClique r (q ++ [i]) = some k → k ∈ os)
  | [], .node c ch, tgt => by
    intro _
    refine ⟨[c], ch, rfl, rfl, ?_, ?_, ?_⟩
    · intro q hq
      have hqn : q = [] := List.prefix_nil.mp hq
      subst hqn
      exact ⟨.node c ch, rfl, by simp [headCond]⟩
    · intro o ho
      obtain ⟨i, hi⟩ := List.mem_iff_getElem?.mp ho
      refine ⟨[], i, List.nil_prefix, ?_, ?_⟩
      · intro hpre
        have := List.prefix_nil.mp hpre
        simp at this
      · simp only [List.nil_append, getClique, hi, Option.some_bind]
    · intro q i k hq _ hget
      have hqn : q = [] := List.prefix_nil.mp hq
      subst hqn
      simp only [List.nil_append, getClique] at hget
      obtain ⟨k2, hk2, hgk⟩ := optionBind_eq_some hget
      have hgk2 : (some k2 : Option Clique) = some k := hgk
      injection hgk2 with hgk2
      exact List.getElem?_mem (hgk2 ▸ hk2)
  | i :: p2, .node c ch, tgt => by
    intro hvalid
    rw [getClique] at hvalid
    obtain ⟨k, hk, hgk⟩ := optionBind_eq_some hvalid
    obtain ⟨bn2, os2, heq, hlen, hpre, horph, hcompl⟩ := removePathAux_spec p2 k tgt hgk
    refine ⟨c :: bn2, ch.eraseIdx i ++ os2, ?_, ?_, ?_, ?_, ?_⟩
    · rw [removePathAux, hk, Option.some_bind, heq, Option.map_some']
    · simp [hlen]
    · intro q hq
      rcases q with _ | ⟨j, q2⟩
      · exact ⟨.node c ch, rfl, by simp [headCond]⟩
      · obtain ⟨hji, hq2⟩ := List.cons_prefix_cons.mp hq
        subst hji
        obtain ⟨cq, hcq, hmem⟩ := hpre q2 hq2
        refine ⟨cq, ?_, by simp [hmem]⟩
        rw [getClique, hk, Option.some_bind]
        exact hcq
    · intro o ho
      rcases List.mem_append.mp ho with ho | ho
      · rw [List.mem_eraseIdx_iff_getElem?] at ho
        obtain ⟨j, hji, hj⟩ := ho
        refine ⟨[], j, List.nil_prefix, ?_, ?_⟩
        · intro hpre2
          obtain ⟨hji2, _⟩ := List.cons_prefix_cons.mp hpre2
          exact hji hji2
        · simp only [List.nil_append, getClique, hj, Option.some_bind]
      · obtain ⟨q, i2, hq, hnq, hget⟩ := horph o ho
        refine ⟨i :: q, i2, List.cons_prefix_cons.mpr ⟨rfl, hq⟩, ?_, ?_⟩
        · intro hpre2
          rw [List.cons_append] at hpre2
          exact hnq (List.cons_prefix_cons.mp hpre2).2
        · rw [List.cons_append, getClique, hk, Option.some_bind]
          exact hget
    · intro q i2 k2 hq hnq hget
      rcases q with _ | ⟨j, q2⟩
      · simp only [List.nil_append, getClique] at hget
        obtain ⟨k3, hk3, hgk3⟩ := optionBind_eq_some hget
        have hgk4 : (some k3 : Option Clique) = some k2 := hgk3
        injection hgk4 with hgk3
        have hne : i2 ≠ i := by
          intro he
          subst he
          exact hnq (by
            rw [List.nil_append]
            exact List.cons_prefix_cons.mpr ⟨rfl, List.nil_prefix⟩)
        refine List.mem_append.mpr (Or.inl ?_)
        rw [List.mem_eraseIdx_iff_getElem?]
        exact ⟨i2, hne, hgk3 ▸ hk3⟩
      · obtain ⟨hji, hq2⟩ := List.cons_prefix_cons.mp hq
        subst hji
        rw [List.cons_append, getClique, hk, Option.some_bind] at hget
        refine List.mem_append.mpr (Or.inr ?_)
        refine hcompl q2 i2 k2 hq2 ?_ hget
        intro hpre2
        exact hnq (by
          rw [List.cons_append]
          exact List.cons_prefix_cons.mpr ⟨rfl, hpre2⟩)

/-! ## Concrete trees used to instantiate and to refute the claims -/

/-- A two-clique chain: root clique `{3}` with child `{2 | 3}`.  It
satisfies the structural invariants (I2 uniqueness, I4 separator
containment), but the child's separator accounts for the root clique's
entire variable set, so re-elimination of its flattened conditionals merges
the two cliques. -/
def exChain2 : Clique := .node ⟨[3],[]⟩ [.node ⟨[2],[3]⟩ []]

/-- A constructed four-clique tree: root `{5,6}` with children `{3 | 5}`
(which has child `{1 | 3}`) and `{4 | 5}`. -/
def exTree : Clique :=
  .node ⟨[5,6],[]⟩ [.node ⟨[3],[5]⟩ [.node ⟨[1],[3]⟩ []], .node ⟨[4],[5]⟩ []]

/-- A three-clique chain: root `{5}`, child `{3 | 5}`, grandchild `{1 | 3}`. -/
def exC6 : Clique :=
  .node ⟨[5],[]⟩ [.node ⟨[3],[5]⟩ [.node ⟨[1],[3]⟩ []]]

/-- A tree in which the variables 1 and 2 are owned by sibling cliques:
root `{5}` with children `{1 | 5}` and `{2 | 5}` (as `insert(subtree)`
builds when two one-variable subtrees are attached beneath the root). -/
def exSib : Clique := .node ⟨[5],[]⟩ [.node ⟨[1],[5]⟩ [], .node ⟨[2],[5]⟩ []]

/-- A two-entry nodes index: variable 0 owned by the root `{0}`, variable 1
owned by its child `{1 | 0}`. -/
def exNodes : List (Option Clique) :=
  [some (.node ⟨[0],[]⟩ []), some (.node ⟨[1],[0]⟩ [])]

/-- A two-clique tree with a cached factor on the root. -/
def exCC : CClique := .node ⟨[1,2],[3]⟩ (some ⟨[2,3]⟩) [.node ⟨[4],[1]⟩ none []]

/-! ## Shared helper lemmas for the claim theorems -/

/-- A tree built from a chain of conditionals carries exactly the chain's
frontal variables. -/
theorem AF_buildChain (cs : List Conditional) (r : Clique)
    (hb : buildChain cs = some r) :
    List.Perm (allFrontals r) (chainFrontals cs) := by
  rcases cs with _ | ⟨c, rest⟩
  · exact Option.noConfusion hb
  · rw [buildChain] at hb
    by_cases hemp : c.parents.isEmpty
    · rw [if_pos hemp] at hb
      refine (AF_foldChain rest (Clique.node c []) r hb).trans ?_
      rw [chainFrontals, allFrontals, allFrontalsL]
      rw [List.perm_iff_count]
      intro a
      simp only [List.count_append, List.count_nil]
      omega
    · rw [if_neg hemp] at hb
      exact Option.noConfusion hb

/-- Clearing keys from the nodes index keeps the deque's length. -/
theorem clearKeys_length (nodes : List (Option Clique)) (ks : List Var) :
    (clearKeys nodes ks).length = nodes.length := by
  rw [clearKeys, List.length_map, List.enum_length]

/-- A cleared in-range entry of the nodes index is the null shared pointer. -/
theorem clearKeys_get (nodes : List (Option Clique)) (ks : List Var) (i : Nat)
    (h : i < nodes.length) (hi : i ∈ ks) :
    (clearKeys nodes ks)[i]? = some none := by
  rw [clearKeys]
  rw [List.getElem?_map, List.getElem?_enum]
  rw [List.getElem?_eq_getElem h]
  simp only [Option.map_some', hi, if_true]

/-! ## The claims -/

/-- C9: `cloneTo` runs `root_->cloneToBayesTree(*newTree)` without testing
`root_`, so on an empty tree it dereferences a null pointer (modelled as
`none`): the tree must be non-empty for the call to be safe.  Under that
precondition the null dereference is unreachable and the clone is a deep
copy of every clique — the conditional is copied, a present cached factor
is cloned, an absent one stays null, and all children are recursed over —
so the cloned tree is structurally identical to the original, which the
third conjunct states. -/
theorem claim_C9 :
    cloneTo none = none ∧
    (∀ r : CClique, cloneTo (some r) = some (some (cloneToBayesTree r))) ∧
    (∀ t : CClique, cloneToBayesTree t = t) :=
  ⟨rfl, fun _ => rfl, cloneToBayesTree_id⟩

/-- C10 (amended): `Clique::equals` compares only the two cliques'
conditionals — differences in cached factors, children, or parent links
never affect the result (first conjunct: the result is unchanged when all
other fields are replaced).  It returns true when both conditionals are
absent and the tolerance-based conditional equality when both are present;
but when exactly one conditional is absent, the claim's "otherwise returns
the tolerance-based equality" is wrong: the second disjunct dereferences a
null conditional pointer (modelled as `none`), refuted by the claim's
counterexample. -/
theorem claim_C10 (eqc : Conditional → Conditional → Bool) (a b : CliqueFields) :
    (cliqueEquals eqc a b
      = cliqueEquals eqc ⟨a.conditional, !a.parentPresent, [], none⟩
          ⟨b.conditional, !b.parentPresent, [], none⟩) ∧
    (a.conditional = none → b.conditional = none →
      cliqueEquals eqc a b = some true) ∧
    (∀ x y, a.conditional = some x → b.conditional = some y →
      cliqueEquals eqc a b = some (eqc x y)) ∧
    (a.conditional = none → (∃ y, b.conditional = some y) →
      cliqueEquals eqc a b = none) ∧
    ((∃ x, a.conditional = some x) → b.conditional = none →
      cliqueEquals eqc a b = none) := by
  refine ⟨?_, ?_, ?_, ?_, ?_⟩
  · rw [cliqueEquals, cliqueEquals]
  · intro ha hb
    rw [cliqueEquals, ha, hb]
  · intro x y ha hb
    rw [cliqueEquals, ha, hb]
  · intro ha hb
    obtain ⟨y, hy⟩ := hb
    rw [cliqueEquals, ha, hy]
  · intro ha hb
    obtain ⟨x, hx⟩ := ha
    rw [cliqueEquals, hx, hb]

/-- C10 counterexample: comparing a clique without a conditional against one
with a conditional does not produce the conditionals' tolerance-based
equality (nor `true`): the comparison dereferences a null pointer, modelled
as `none`, which is neither `some true` nor `some false`. -/
theorem claim_C10_counterexample :
    cliqueEquals (fun x y => x == y) ⟨none, false, [], none⟩
      ⟨some ⟨[1],[]⟩, false, [], none⟩ = none ∧
    (none : Option Bool) ≠ some true ∧ (none : Option Bool) ≠ some false :=
  ⟨rfl, by decide, by decide⟩

/-- C10 witness: two cliques with equal conditionals but different parent
links, children and cached factors compare equal. -/
theorem claim_C10_witness :
    cliqueEquals (fun x y => x == y)
      ⟨some ⟨[1],[2]⟩, true, [CClique.node ⟨[9],[]⟩ none []], some ⟨[7]⟩⟩
      ⟨some ⟨[1],[2]⟩, false, [], none⟩ = some true := by
  have h := (claim_C10 (fun x y => x == y)
      ⟨some ⟨[1],[2]⟩, true, [CClique.node ⟨[9],[]⟩ none []], some ⟨[7]⟩⟩
      ⟨some ⟨[1],[2]⟩, false, [], none⟩).2.2.1 ⟨[1],[2]⟩ ⟨[1],[2]⟩ rfl rfl
  rw [h]
  rfl

/-- C8: relabelling every variable of a tree through the identity mapping
leaves the tree unchanged, and — at clique level and at tree level — two
successive `permuteWithInverse` relabellings with bijective mappings equal
the single relabelling with the composed mapping. -/
theorem claim_C8 :
    (∀ t : CClique, permuteWithInverse (fun v => v) t = t) ∧
    (∀ tr : Option CClique, treePermuteWithInverse (fun v => v) tr = tr) ∧
    (∀ m1 m2 : Var → Var, Function.Bijective m1 → Function.Bijective m2 →
      (∀ t : CClique, permuteWithInverse m2 (permuteWithInverse m1 t)
          = permuteWithInverse (fun v => m2 (m1 v)) t) ∧
      (∀ tr : Option CClique, treePermuteWithInverse m2 (treePermuteWithInverse m1 tr)
          = treePermuteWithInverse (fun v => m2 (m1 v)) tr)) := by
  refine ⟨permuteWithInverse_id, ?_, ?_⟩
  · intro tr
    rcases tr with _ | r
    · rfl
    · show some (permuteWithInverse (fun v => v) r) = some r
      rw [permuteWithInverse_id r]
  · intro m1 m2 _ _
    refine ⟨permuteWithInverse_comp m1 m2, ?_⟩
    intro tr
    rcases tr with _ | r
    · rfl
    · show some (permuteWithInverse m2 (permuteWithInverse m1 r)) = some _
      rw [permuteWithInverse_comp m1 m2 r]

/-- C8 witness: the composition law applied with the identity mapping (a
bijection) on a concrete two-clique tree with a cached factor. -/
theorem claim_C8_witness :
    Function.Bijective (fun v : Var => v) ∧
    permuteWithInverse (fun v : Var => v)
        (permuteWithInverse (fun v : Var => v) exCC)
      = permuteWithInverse (fun v : Var => (fun u : Var => u) ((fun u : Var => u) v)) exCC := by
  have hb : Function.Bijective (fun v : Var => v) := Function.bijective_id
  exact ⟨hb, (claim_C8.2.2 (fun v => v) (fun v => v) hb hb).1 exCC⟩

/-- C2: over the opaque external elimination engine — assumed only to
honour its contract, that an eliminated conditional keeps exactly the
requested frontal variables and conditions only on variables drawn from the
given ones — `shortcut` at a clique whose ancestor chain below the root is
empty (the clique is the root or its parent is the root) returns the empty
(identity) conditional, and at any clique with a non-empty ancestor chain
returns a conditional over exactly the clique's separator `SC` given
variables among the root's frontal variables `FR`: the shape of
P(S_clique | F_root). -/
theorem claim_C2 (elim : ShortcutElim)
    (hfr : ∀ fg keep given, (elim fg keep given).frontals = keep)
    (hpa : ∀ fg keep given, ∀ v ∈ (elim fg keep given).parents, v ∈ given)
    (FR SC : List Var) (chain : List Conditional) :
    shortcut elim FR [] SC = ⟨[], []⟩ ∧
    (chain ≠ [] →
      (shortcut elim FR chain SC).frontals = SC ∧
      ∀ v ∈ (shortcut elim FR chain SC).parents, v ∈ FR) := by
  refine ⟨rfl, ?_⟩
  intro hch
  rcases chain with _ | ⟨pc, rest⟩
  · exact absurd rfl hch
  · rw [shortcut]
    exact ⟨hfr _ _ _, hpa _ _ _⟩

/-- C2 witness: with the eliminator that returns the literally requested
conditional, the shortcut of a clique with separator `{5}` below a root
with frontals `{7}`, one ancestor in between, is a conditional with
frontals `{5}` and parents among `{7}`; the empty-chain shortcut is the
empty conditional. -/
theorem claim_C2_witness :
    shortcut (fun _ keep given => ⟨keep, given⟩) [7] [] [5] = ⟨[], []⟩ ∧
    (shortcut (fun _ keep given => ⟨keep, given⟩) [7] [⟨[3],[7]⟩] [5]).frontals = [5] ∧
    (shortcut (fun _ keep given => ⟨keep, given⟩) [7] [⟨[3],[7]⟩] [5]).parents = [7] := by
  have h := claim_C2 (fun _ keep given => ⟨keep, given⟩)
    (fun _ _ _ => rfl) (fun _ _ _ _ hv => hv) [7] [5] [⟨[3],[7]⟩]
  exact ⟨h.1, (h.2 (by simp)).1, rfl⟩

/-- C5 (amended): `operator[]` is `nodes_.at(key)`, and `std::deque::at`
throws only for keys beyond the deque's extent: the lookup fails with
OutOfRange exactly when the key is at least the index's length (a variable
slot that never existed), and an in-range key always succeeds.  The claim's
"for every variable key absent from the index" is refuted by the claim's
counterexample: a variable removed from the tree keeps its slot — removal
only nulls the entry — so its lookup returns the null shared pointer
without failing (third conjunct).  The throw-versus-null outcome is what
distinguishes "never existed" from "removed". -/
theorem claim_C5 (t : BayesTreeIx) (key : Nat) :
    (t.nodes.length ≤ key → t.opIndex key = .error .outOfRange) ∧
    (key < t.nodes.length → ∃ e, t.opIndex key = .ok e) ∧
    (∀ nodes ks, key < nodes.length → key ∈ ks →
      BayesTreeIx.opIndex ⟨t.root, clearKeys nodes ks⟩ key = .ok none) := by
  refine ⟨?_, ?_, ?_⟩
  · intro h
    rw [BayesTreeIx.opIndex, dif_neg (by omega)]
  · intro h
    exact ⟨t.nodes.get ⟨key, h⟩, by rw [BayesTreeIx.opIndex, dif_pos h]⟩
  · intro nodes ks h hk
    have hlen : key < (clearKeys nodes ks).length := by
      rw [clearKeys_length]
      exact h
    rw [BayesTreeIx.opIndex, dif_pos hlen]
    have hg := clearKeys_get nodes ks key h hk
    rw [List.getElem?_eq_getElem hlen] at hg
    injection hg with hg
    rw [List.get_eq_getElem]
    rw [hg]

/-- C5 counterexample: in the two-entry index `exNodes`, removing the
clique owning variable 1 nulls its entry but keeps the slot; looking key 1
up afterwards returns the null shared pointer successfully instead of
failing with OutOfRange, although the variable is absent from the tree. -/
theorem claim_C5_counterexample :
    clearKeys exNodes [1] = [some (Clique.node ⟨[0],[]⟩ []), none] ∧
    BayesTreeIx.opIndex ⟨none, clearKeys exNodes [1]⟩ 1 = .ok none ∧
    BayesTreeIx.opIndex ⟨none, clearKeys exNodes [1]⟩ 1 ≠ .error .outOfRange := by
  refine ⟨by decide, by rfl, ?_⟩
  intro h
  rw [show BayesTreeIx.opIndex ⟨none, clearKeys exNodes [1]⟩ 1
      = .ok none from rfl] at h
  exact Except.noConfusion h

/-- C5 witness: on the index `exNodes`, key 5 (beyond the extent) fails
with OutOfRange, and the in-range removed key 1 returns the null entry. -/
theorem claim_C5_witness :
    BayesTreeIx.opIndex ⟨none, exNodes⟩ 5 = .error .outOfRange ∧
    BayesTreeIx.opIndex ⟨none, clearKeys exNodes [1]⟩ 1 = .ok none := by
  refine ⟨(claim_C5 ⟨none, exNodes⟩ 5).1 (by decide), ?_⟩
  exact (claim_C5 ⟨none, exNodes⟩ 1).2.2 exNodes [1] (by decide) (by decide)

/-- C4: `insert(subtree)` is settled by cases on the merged failure tests.
If some frontal variable of the subtree already exists in the tree, it
fails with StructuralViolation — surfaced explicitly as the operation's
result, never silently ignored (first conjunct).  If the subtree root's
separator resolves to no variable (`findParentClique` finds no lowest
variable) or the resolved variable is frontal nowhere in the tree, it also
fails with StructuralViolation (second and third conjuncts).  Otherwise the
subtree is attached intact beneath the clique owning the variable
`findParentClique` returns: the result is the graft of the subtree at that
clique, the tree grows by exactly the subtree's cliques, and its frontal
variables become the disjoint union of both sides' (fourth conjunct). -/
theorem claim_C4 :
    (∀ t o, sharesFrontal t o = true →
      insertSubtree t o = .error .structuralViolation) ∧
    (∀ t o, sharesFrontal t o = false →
      findParentClique (headCond o).parents = none →
      insertSubtree t o = .error .structuralViolation) ∧
    (∀ t o v, sharesFrontal t o = false →
      findParentClique (headCond o).parents = some v →
      hasFrontalVar v t = false →
      insertSubtree t o = .error .structuralViolation) ∧
    (∀ t o v, sharesFrontal t o = false →
      findParentClique (headCond o).parents = some v →
      hasFrontalVar v t = true →
      insertSubtree t o = Except.ok (graftPure v o t) ∧
      treeSize (graftPure v o t) = treeSize t + treeSize o ∧
      List.Perm (allFrontals (graftPure v o t))
        (allFrontals t ++ allFrontals o)) := by
  refine ⟨?_, ?_, ?_, ?_⟩
  · intro t o h
    rw [insertSubtree, if_pos h]
  · intro t o h hm
    rw [findParentClique] at hm
    rw [insertSubtree, if_neg (by simp [h]), hm]
  · intro t o v h hm hv
    rw [findParentClique] at hm
    rw [insertSubtree, if_neg (by simp [h]), hm]
    show (if hasFrontalVar v t = true then Except.ok (graftPure v o t)
        else Except.error BTError.structuralViolation) = _
    rw [if_neg (by simp [hv])]
  · intro t o v h hm hv
    rw [findParentClique] at hm
    refine ⟨?_, treeSize_graft v o t hv, AF_graft v o t hv⟩
    rw [insertSubtree, if_neg (by simp [h]), hm]
    show (if hasFrontalVar v t = true then Except.ok (graftPure v o t)
        else Except.error BTError.structuralViolation) = _
    rw [if_pos hv]

/-- C4 witness: attaching the subtree `{9 | 6}` to `exTree` succeeds — its
separator resolves to variable 6, frontal in the root — grafting it there
and growing the tree by one clique; attaching a subtree whose frontal 3
already exists fails with StructuralViolation. -/
theorem claim_C4_witness :
    sharesFrontal exTree (Clique.node ⟨[9],[6]⟩ []) = false ∧
    findParentClique (headCond (Clique.node ⟨[9],[6]⟩ [])).parents = some 6 ∧
    hasFrontalVar 6 exTree = true ∧
    insertSubtree exTree (Clique.node ⟨[9],[6]⟩ [])
      = Except.ok (graftPure 6 (Clique.node ⟨[9],[6]⟩ []) exTree) ∧
    treeSize (graftPure 6 (Clique.node ⟨[9],[6]⟩ []) exTree)
      = treeSize exTree + treeSize (Clique.node ⟨[9],[6]⟩ []) ∧
    sharesFrontal exTree (Clique.node ⟨[3],[5]⟩ []) = true ∧
    insertSubtree exTree (Clique.node ⟨[3],[5]⟩ [])
      = .error .structuralViolation := by
  obtain ⟨e1, _, _, s⟩ := claim_C4
  have h := s exTree (Clique.node ⟨[9],[6]⟩ []) 6 (by decide) (by decide) (by decide)
  exact ⟨by decide, by decide, by decide, h.1, h.2.1, by decide,
    e1 exTree (Clique.node ⟨[3],[5]⟩ []) (by decide)⟩

/-- C6 (amended): `findParentClique` returns the lowest-ordered variable of
the collection (per the header comment, "the one with the lowest index in
the ordering").  The claim's direction is refuted by the claim's
counterexample, in two ways: the candidate owners need not be related at
all (sibling owners), and even on a chain the owner of the lowest-ordered
variable is the *descendant* — variables eliminated first lie closest to
the leaves — not the ancestor.  Amended: when every given variable has an
owning clique, the owners lie on a single root path (pairwise
prefix-comparable owner paths), and ownership respects the elimination
order (a strictly deeper owner owns a strictly lower-ordered variable),
the owner of the returned variable is a descendant of every other
candidate's owner: every candidate's owner path is a prefix of the path of
the owner of `findParentClique`'s result, making it the unique deepest
valid attachment point. -/
theorem claim_C6 (t : Clique) (vars : List Var) (m : Var)
    (hmin : findParentClique vars = some m)
    (hown : ∀ v ∈ vars, ∃ p, ownerPath v t = some p)
    (hchain : ∀ u v pu pv, u ∈ vars → v ∈ vars → ownerPath u t = some pu →
      ownerPath v t = some pv → List.IsPrefix pu pv ∨ List.IsPrefix pv pu)
    (hmono : ∀ u v pu pv, u ∈ vars → v ∈ vars → ownerPath u t = some pu →
      ownerPath v t = some pv → List.IsPrefix pu pv → pu ≠ pv → v < u) :
    ∃ pm, ownerPath m t = some pm ∧
      ∀ v ∈ vars, ∀ pv, ownerPath v t = some pv → List.IsPrefix pv pm := by
  rw [findParentClique] at hmin
  have hm := List.min?_eq_some_iff'.mp hmin
  obtain ⟨pm, hpm⟩ := hown m hm.1
  refine ⟨pm, hpm, ?_⟩
  intro v hv pv hpv
  rcases hchain m v pm pv hm.1 hv hpm hpv with h | h
  · by_cases he : pm = pv
    · exact ⟨[], by rw [List.append_nil, ← he]⟩
    · exact absurd (hmono m v pm pv hm.1 hv hpm hpv h he)
        (Nat.not_lt.mpr (hm.2 v hv))
  · exact h

/-- C6 counterexample: in `exSib` — which satisfies I2 and I4, and which
`insert(subtree)` builds by attaching `{1 | 5}` and `{2 | 5}` beneath the
root `{5}` — the variables 1 and 2 are owned by sibling cliques.
`findParentClique [1,2]` returns 1, but the clique owning 1 (at path
`[0]`) is not an ancestor of the clique owning 2 (at path `[1]`): neither
owner path is a prefix of the other, refuting "that clique is an ancestor
of every other candidate". -/
theorem claim_C6_counterexample :
    invariantI2 exSib ∧ invariantI4 exSib = true ∧
    hasFrontalVar 1 exSib = true ∧ hasFrontalVar 2 exSib = true ∧
    findParentClique [1,2] = some 1 ∧
    ownerPath 1 exSib = some [0] ∧ ownerPath 2 exSib = some [1] ∧
    ¬ List.IsPrefix ([0] : TreePath) [1] ∧
    ¬ List.IsPrefix ([1] : TreePath) [0] := by
  refine ⟨by decide, by decide, by decide, by decide, rfl, rfl, rfl, ?_, ?_⟩
  · rintro ⟨s, hs⟩
    simp at hs
  · rintro ⟨s, hs⟩
    simp at hs

/-- C6 witness: on the chain `exC6` with candidate variables `{3, 1}`,
`findParentClique` returns 1, owned at path `[0,0]`; the other candidate 3
is owned at path `[0]`, which is a prefix of `[0,0]` — the owner of 1 is
the deepest candidate owner, below the owner of 3. -/
theorem claim_C6_witness :
    findParentClique [3,1] = some 1 ∧
    ownerPath 1 exC6 = some [0,0] ∧ ownerPath 3 exC6 = some [0] ∧
    List.IsPrefix [0] [0,0] := by
  have hpath : ∀ u ∈ ([3,1] : List Var), ∀ pu, ownerPath u exC6 = some pu →
      (u = 3 ∧ pu = [0]) ∨ (u = 1 ∧ pu = [0,0]) := by
    intro u hu pu hpu
    rcases List.mem_cons.mp hu with rfl | hu2
    · refine Or.inl ⟨rfl, ?_⟩
      exact (Option.some.inj ((show ownerPath 3 exC6 = some [0] from
        rfl).symm.trans hpu)).symm
    · rcases List.mem_cons.mp hu2 with rfl | hu3
      · refine Or.inr ⟨rfl, ?_⟩
        exact (Option.some.inj ((show ownerPath 1 exC6 = some [0,0] from
          rfl).symm.trans hpu)).symm
      · exact absurd hu3 (List.not_mem_nil u)
  have hown : ∀ v ∈ ([3,1] : List Var), ∃ p, ownerPath v exC6 = some p := by
    intro v hv
    rcases List.mem_cons.mp hv with rfl | hv2
    · exact ⟨[0], rfl⟩
    · rcases List.mem_cons.mp hv2 with rfl | hv3
      · exact ⟨[0,0], rfl⟩
      · exact absurd hv3 (List.not_mem_nil v)
  have hchain : ∀ u v pu pv, u ∈ ([3,1] : List Var) → v ∈ ([3,1] : List Var) →
      ownerPath u exC6 = some pu → ownerPath v exC6 = some pv →
      List.IsPrefix pu pv ∨ List.IsPrefix pv pu := by
    intro u v pu pv hu hv hpu hpv
    rcases hpath u hu pu hpu with ⟨_, rfl⟩ | ⟨_, rfl⟩ <;>
      rcases hpath v hv pv hpv with ⟨_, rfl⟩ | ⟨_, rfl⟩
    · exact Or.inl ⟨[], rfl⟩
    · exact Or.inl ⟨[0], rfl⟩
    · exact Or.inr ⟨[0], rfl⟩
    · exact Or.inl ⟨[], rfl⟩
  have hmono : ∀ u v pu pv, u ∈ ([3,1] : List Var) → v ∈ ([3,1] : List Var) →
      ownerPath u exC6 = some pu → ownerPath v exC6 = some pv →
      List.IsPrefix pu pv → pu ≠ pv → v < u := by
    intro u v pu pv hu hv hpu hpv hpre hne
    rcases hpath u hu pu hpu with ⟨rfl, rfl⟩ | ⟨rfl, rfl⟩ <;>
      rcases hpath v hv pv hpv with ⟨rfl, rfl⟩ | ⟨rfl, rfl⟩
    · exact absurd rfl hne
    · decide
    · obtain ⟨s, hs⟩ := hpre
      simp at hs
    · exact absurd rfl hne
  obtain ⟨pm, hpm, hall⟩ := claim_C6 exC6 [3,1] 1 rfl hown hchain hmono
  have he : pm = [0,0] :=
    Option.some.inj (hpm.symm.trans (show ownerPath 1 exC6 = some [0,0] from rfl))
  subst he
  exact ⟨rfl, hpm, rfl, hall 3 (by decide) [0] rfl⟩

/-- C3: validated against the full specification of the walk.  For the
clique at any valid path `p` from the root, `removePath` succeeds and (i)
returns one conditional per visited clique — the cliques at the prefixes of
`p`, i.e. the path from the target up to the root, each contributing its
conditional to the returned Bayes net; (ii) every returned orphan is the
intact subtree hanging off a visited clique one step off the walked path,
and conversely every such subtree is returned as an orphan; and (iii) the
visited cliques are removed: the walk always reaches the root here (the
path starts there), so the tree's root is cleared (`none`). -/
theorem claim_C3 (r tgt : Clique) (p : TreePath)
    (hvalid : getClique r p = some tgt) :
    ∃ bn os,
      removePath (some r) p = some (bn, os, none) ∧
      bn.length = p.length + 1 ∧
      (∀ q, List.IsPrefix q p → ∃ cq, getClique r q = some cq ∧ headCond cq ∈ bn) ∧
      (∀ o ∈ os, ∃ q i, List.IsPrefix q p ∧ ¬ List.IsPrefix (q ++ [i]) p ∧
        getClique r (q ++ [i]) = some o) ∧
      (∀ q i k, List.IsPrefix q p → ¬ List.IsPrefix (q ++ [i]) p →
        getClique r (q ++ [i]) = some k → k ∈ os) := by
  obtain ⟨bn, os, heq, h1, h2, h3, h4⟩ := removePathAux_spec p r tgt hvalid
  refine ⟨bn, os, ?_, h1, h2, h3, h4⟩
  rw [removePath, heq, Option.map_some']

/-- C3 witness: removing the path to the clique `{3 | 5}` of `exTree`
returns the conditionals of the two visited cliques, moves the two subtrees
hanging off the walked path (`{4 | 5}` under the root and `{1 | 3}` under
the target) intact into the orphans, and clears the tree. -/
theorem claim_C3_witness :
    getClique exTree [0] = some (Clique.node ⟨[3],[5]⟩ [Clique.node ⟨[1],[3]⟩ []]) ∧
    removePath (some exTree) [0]
      = some ([⟨[5,6],[]⟩, ⟨[3],[5]⟩],
          [Clique.node ⟨[4],[5]⟩ [], Clique.node ⟨[1],[3]⟩ []], none) := by
  obtain ⟨bn, os, heq, hlen, hpre2, horph, hcompl⟩ :=
    claim_C3 exTree (Clique.node ⟨[3],[5]⟩ [Clique.node ⟨[1],[3]⟩ []]) [0] (by rfl)
  exact ⟨by rfl, by rfl⟩

/-- C7: invariant I2 — each variable frontal in at most one clique, hence
(being present exactly when frontal somewhere) in exactly one — holds after
every construction and mutation, given only that the variables being added
are fresh (no duplicates among the inputs and none already in the tree; the
claimed `StructuralViolation` guards reject exactly the violating inputs).
Conjuncts: the empty tree; construction from a chain of conditionals;
construction from a chain plus re-inserted subtrees; `insert(conditional)`
(one elimination step); `insert(conditional, children, isRootClique)`;
`removeClique`; `removePath`; `removeTop` — each preserves or establishes a
duplicate-free frontal multiset. -/
theorem claim_C7 :
    invariantI2opt none ∧
    (∀ cs r, buildChain cs = some r → (chainFrontals cs).Nodup →
      invariantI2 r) ∧
    (∀ cs subs r0 r, buildChain cs = some r0 →
      List.foldlM insertSubtree r0 subs = .ok r →
      (chainFrontals cs ++ allFrontalsL subs).Nodup → invariantI2 r) ∧
    (∀ t c t2, insertCondStep t c = some t2 →
      (c.frontals ++ allFrontals t).Nodup → invariantI2 t2) ∧
    (∀ c chl flag t, (c.frontals ++ allFrontalsL chl ++ AFopt t).Nodup →
      invariantI2 (insertCliqueOp c chl flag t)) ∧
    (∀ t p t2, removeCliqueAt t p = some t2 → invariantI2 t →
      invariantI2opt t2) ∧
    (∀ r p bn os t2, removePath (some r) p = some (bn, os, t2) →
      invariantI2opt t2) ∧
    (∀ ks t bn os t2, removeTop ks t = (bn, os, t2) → invariantI2opt t →
      invariantI2opt t2) := by
  refine ⟨List.nodup_nil, ?_, ?_, ?_, ?_, ?_, ?_, ?_⟩
  · intro cs r hb hnd
    exact hnd.perm (AF_buildChain cs r hb).symm
  · intro cs subs r0 r hb hf hnd
    refine hnd.perm (List.Perm.symm ?_)
    refine (AF_foldSubtrees subs r0 r hf).trans ?_
    exact (AF_buildChain cs r0 hb).append_right (allFrontalsL subs)
  · intro t c t2 h hnd
    exact hnd.perm (AF_insertCondStep t t2 c h).symm
  · intro c chl flag t hnd
    exact hnd.perm (AF_insertCliqueOp c chl flag t).symm
  · intro t p t2 h h2
    exact h2.sublist (AF_removeCliqueAt p t t2 h)
  · intro r p bn os t2 h
    have h2 : (removePathAux r p).map
        (fun x => (x.1, x.2, (none : Option Clique))) = some (bn, os, t2) := h
    rcases hx : removePathAux r p with _ | x
    · rw [hx, Option.map_none'] at h2
      exact Option.noConfusion h2
    · rw [hx, Option.map_some'] at h2
      injection h2 with h2
      have ht : (none : Option Clique) = t2 := congrArg (fun y => y.2.2) h2
      rw [← ht]
      exact List.nodup_nil
  · intro ks t bn os t2 h hI
    rcases t with _ | r
    · have ht : (none : Option Clique) = t2 := congrArg (fun y => y.2.2) h
      rw [← ht]
      exact List.nodup_nil
    · have h2 : (if anyKeyIn ks r then
          ((removeTopAux ks r).1, (removeTopAux ks r).2, (none : Option Clique))
          else ([], [], some r)) = (bn, os, t2) := h
      by_cases ha : anyKeyIn ks r
      · rw [if_pos ha] at h2
        have ht : (none : Option Clique) = t2 := congrArg (fun y => y.2.2) h2
        rw [← ht]
        exact List.nodup_nil
      · rw [if_neg (by simp [ha])] at h2
        have ht : (some r : Option Clique) = t2 := congrArg (fun y => y.2.2) h2
        rw [← ht]
        exact hI

/-- C7 witness: I2 holds concretely after building a two-conditional chain,
after re-inserting the subtree `{9 | 6}` into it, after
`insert(conditional, children, isRootClique)` with a fresh root conditional
`{9}`, after removing the clique at path `[0]` of `exTree`, and on the
empty tree left by `removePath`. -/
theorem claim_C7_witness :
    invariantI2 (Clique.node ⟨[5,6],[]⟩ [Clique.node ⟨[3],[5]⟩ []]) ∧
    invariantI2 (Clique.node ⟨[5,6],[]⟩
      [Clique.node ⟨[3],[5]⟩ [], Clique.node ⟨[9],[6]⟩ []]) ∧
    invariantI2 (insertCliqueOp ⟨[9],[]⟩ [] true
      (some (Clique.node ⟨[5,6],[]⟩ []))) ∧
    invariantI2opt (some (Clique.node ⟨[5,6],[]⟩ [Clique.node ⟨[4],[5]⟩ []])) ∧
    invariantI2opt none := by
  obtain ⟨h1, h2, h3, _, h5, h6, h7, _⟩ := claim_C7
  refine ⟨?_, ?_, ?_, ?_, h1⟩
  · exact h2 [⟨[5,6],[]⟩, ⟨[3],[5]⟩]
      (Clique.node ⟨[5,6],[]⟩ [Clique.node ⟨[3],[5]⟩ []]) rfl (by decide)
  · exact h3 [⟨[5,6],[]⟩, ⟨[3],[5]⟩] [Clique.node ⟨[9],[6]⟩ []]
      (Clique.node ⟨[5,6],[]⟩ [Clique.node ⟨[3],[5]⟩ []])
      (Clique.node ⟨[5,6],[]⟩ [Clique.node ⟨[3],[5]⟩ [], Clique.node ⟨[9],[6]⟩ []])
      rfl rfl (by decide)
  · exact h5 ⟨[9],[]⟩ [] true (some (Clique.node ⟨[5,6],[]⟩ [])) (by decide)
  · exact h6 exTree [0]
      (some (Clique.node ⟨[5,6],[]⟩ [Clique.node ⟨[4],[5]⟩ []])) rfl (by decide)

/-- C1 (amended): as stated — for every tree satisfying the structural
invariants I1–I5 — the round trip fails, refuted by the claim's
counterexample: re-elimination can merge cliques that the invariants alone
keep separate.  Amended with the constructedness the top of a built tree
actually has: for every tree whose parent/child links are as construction
produces them (each child's separator is nonempty, resolves via its
lowest-ordered variable to the parent clique, and does not account for the
parent's entire variable set — so re-elimination does not merge it), whose
cliques have nonempty frontal lists with the root eliminated last (empty
root separator), and which satisfies I2, and for every nonempty key set
present in the tree, `removeTop` dissolves the contaminated top into
flattened conditionals and orphans; re-eliminating the conditionals under
the original ordering and re-inserting every orphan yields a tree
structurally equal — equal as trees with unordered children collections,
compared via the canonical child order — to the pre-call tree. -/
theorem claim_C1 (r : Clique) (ks : List Var)
    (hwf : wfShape r = true) (hne : wfNE r = true) (h2 : invariantI2 r)
    (hroot : (headCond r).parents = [])
    (hks : ks ≠ []) (hpres : ∀ k ∈ ks, hasFrontalVar k r = true) :
    ∃ t2,
      removeTop ks (some r) = ((removeTopAux ks r).1, (removeTopAux ks r).2, none) ∧
      reEliminateAndInsert (removeTopAux ks r).1 (removeTopAux ks r).2
        = Except.ok t2 ∧
      canon t2 = canon r :=
  removeTop_roundTrip r ks hwf hne h2 hroot hks hpres

/-- C1 counterexample: the chain `exChain2` (root `{3}`, child `{2 | 3}`)
satisfies the structural invariants — I2 uniqueness and I4 separator
containment hold (I1, I3, I5 hold by the shape of the model) — and key 2 is
present.  `removeTop [2]` dissolves both cliques into the flattened
conditionals `[{3}, {2 | 3}]` with no orphans; re-eliminating them merges
the two cliques (the separator `{3}` of `{2 | 3}` accounts for the root
clique's entire variable set), producing the single clique `{2,3}` — not
structurally equal to the two-clique pre-call tree. -/
theorem claim_C1_counterexample :
    invariantI2 exChain2 ∧ invariantI4 exChain2 = true ∧
    hasFrontalVar 2 exChain2 = true ∧
    removeTop [2] (some exChain2)
      = ([⟨[3],[]⟩, ⟨[2],[3]⟩], ([] : List Clique), none) ∧
    reEliminateAndInsert [⟨[3],[]⟩, ⟨[2],[3]⟩] []
      = Except.ok (Clique.node ⟨[2,3],[]⟩ []) ∧
    canon (Clique.node ⟨[2,3],[]⟩ []) ≠ canon exChain2 := by
  refine ⟨by decide, by decide, by decide, by decide, by rfl, by decide⟩

/-- C1 witness: the round trip on the constructed tree `exTree` with key
set `{1}`: the contaminated path `{5,6} — {3 | 5} — {1 | 3}` is dissolved,
`{4 | 5}` and nothing else survives as an orphan subtree, and rebuilding
returns a tree structurally equal to `exTree`. -/
theorem claim_C1_witness :
    wfShape exTree = true ∧ wfNE exTree = true ∧ invariantI2 exTree ∧
    (headCond exTree).parents = [] ∧ hasFrontalVar 1 exTree = true ∧
    removeTop [1] (some exTree)
      = ((removeTopAux [1] exTree).1, (removeTopAux [1] exTree).2, none) ∧
    reEliminateAndInsert (removeTopAux [1] exTree).1 (removeTopAux [1] exTree).2
      = Except.ok (reshape [1] exTree) ∧
    canon (reshape [1] exTree) = canon exTree := by
  obtain ⟨t2, ha, hb, hc⟩ := claim_C1 exTree [1] (by decide) (by decide)
    (by decide) (by decide) (by decide) (by decide)
  have hv : reEliminateAndInsert (removeTopAux [1] exTree).1
      (removeTopAux [1] exTree).2 = Except.ok (reshape [1] exTree) := by rfl
  have h2 := hb.symm.trans hv
  injection h2 with h2
  refine ⟨by decide, by decide, by decide, by decide, by decide, ha, hv, ?_⟩
  rw [← h2]
  exact hc
